import Mathlib

/-!
rpm_server_go: tag creation, diff recording, configuration lookup, bearer
authentication and directory listing

A shallow embedding of the Go sources `config.go`, `utils.go`, `middleware.go`,
`handlers_api.go` and the listing sort of `handlers_browser.go`.

Conventions of the embedding

* Go strings are Lean strings; every string function is written over the
  character list so that it evaluates.  Go compares strings bytewise, which on
  UTF-8 text is the code-point order used by `strLess`.
* The operating system is an explicit state `World`: a table from path strings
  to nodes, and the log of the mutating system calls issued so far.  `os.Stat`
  and `os.ReadDir` resolve a path the way the kernel does, symbolic links
  followed; the mutating calls act on the entry at the path as written and fail
  for the structural reasons written in each `os*` definition.  There are no
  permission bits.
* Unbounded Go loops take a fuel argument; `none` means the fuel ran out.
* The clock, the working directory, `json.MarshalIndent` and the external
  `createrepo_c` tool are parameters collected in `Env`.
-/

deriving instance DecidableEq for Except

namespace RpmServer

/-! ## Strings -/

/-- Lexicographic comparison of two character sequences by code point. -/
def ltChars : List Char → List Char → Bool
  | _, [] => false
  | [], _ :: _ => true
  | a :: as, b :: bs =>
    if a.toNat < b.toNat then true
    else if b.toNat < a.toNat then false
    else ltChars as bs

/-- Go's `a < b` on strings. -/
def strLess (a b : String) : Bool := ltChars a.data b.data

/-- The order `sort.Strings` sorts by: `a` may stand before `b`. -/
def strLe (a b : String) : Prop := strLess b a = false

instance : DecidableRel strLe := fun a b => inferInstanceAs (Decidable (strLess b a = false))

/-- Go's `sort.Strings`: the ascending rearrangement of the slice. -/
def sortStrings (l : List String) : List String := l.insertionSort strLe

/-- Go's `strings.HasSuffix`. -/
def stringsHasSuffix (s suffix : String) : Bool := suffix.data.isSuffixOf s.data

/-- Go's `strings.Split(s, sep)` for a one-character separator, on character lists:
`cur` holds the characters of the part being read. -/
def splitChars (sep : Char) : List Char → List Char → List String
  | cur, [] => [⟨cur⟩]
  | cur, c :: cs =>
    if c = sep then ⟨cur⟩ :: splitChars sep [] cs else splitChars sep (cur ++ [c]) cs

/-- Go's `strings.Split(s, " ")`. -/
def stringsSplitSpace (s : String) : List String := splitChars ' ' [] s.data

/-- Go's `strings.ToLower`, over the rune mapping `lower` (`unicode.ToLower`). -/
def stringsToLower (lower : Char → Char) (s : String) : String := ⟨s.data.map lower⟩

/-- Go's `fmt.Sprintf("%s_%d", base, count)`. -/
def sprintfBackup (base : String) (count : Nat) : String := base ++ "_" ++ toString count

/-! ## Paths -/

/-- The elements of a path: the pieces between separators. -/
def splitSlash : List Char → List (List Char)
  | [] => [[]]
  | c :: cs =>
    if c = '/' then [] :: splitSlash cs
    else
      match splitSlash cs with
      | [] => [[c]]
      | h :: t => (c :: h) :: t

/-- One element read by Go's `filepath.Clean`; `st` holds the elements written so
far, last one first.  Empty elements and `.` are dropped; `..` takes back the
last element written, is kept in front of a relative path when there is
nothing to take back, and is dropped at the root. -/
def cleanStep (rooted : Bool) (st : List (List Char)) (e : List Char) : List (List Char) :=
  if e = [] ∨ e = ['.'] then st
  else if e = ['.', '.'] then
    match st with
    | [] => if rooted then [] else [e]
    | top :: rest => if top = ['.', '.'] then (if rooted then st else e :: st) else rest
  else e :: st

/-- The elements joined by separators. -/
def joinSlash : List (List Char) → List Char
  | [] => []
  | [e] => e
  | e :: es => e ++ '/' :: joinSlash es

/-- The path starts at the root. -/
def isRooted (p : List Char) : Bool := decide (p.head? = some '/')

/-- The elements `filepath.Clean` has written when it reaches the end of the
path, last one first. -/
def cleanStack (p : List Char) : List (List Char) :=
  (splitSlash p).foldl (cleanStep (isRooted p)) []

/-- The path `filepath.Clean` returns for the elements written: the root
separator, the elements joined, and `.` when a relative path has none. -/
def renderClean (rooted : Bool) (st : List (List Char)) : List Char :=
  if rooted then '/' :: joinSlash st.reverse
  else if st = [] then ['.'] else joinSlash st.reverse

/-- Go's `filepath.Clean` on characters (Unix): the shortest path naming the same
thing by purely lexical processing. -/
def cleanChars (p : List Char) : List Char := renderClean (isRooted p) (cleanStack p)

/-- Go's `filepath.Clean`. -/
def filepathClean (p : String) : String := ⟨cleanChars p.data⟩

/-- Go's `filepath.Join` of two elements: empty elements are ignored, the others
are joined by the separator and the result is cleaned; two empty elements give
the empty string. -/
def filepathJoin (a b : String) : String :=
  if a = "" then (if b = "" then "" else filepathClean b)
  else if b = "" then filepathClean a
  else filepathClean (a ++ "/" ++ b)

/-- Go's `filepath.Base`: the last element of the path, trailing separators
removed; `.` for the empty path and `/` for a path of separators only. -/
def filepathBase (p : String) : String :=
  if p = "" then "."
  else
    let r := p.data.reverse.dropWhile (fun c => c = '/')
    if r = [] then "/" else ⟨(r.takeWhile (fun c => c ≠ '/')).reverse⟩

/-- Go's `filepath.Abs`: an absolute path is kept, a relative one is joined to
the working directory. -/
def filepathAbs (cwd p : String) : String :=
  if p.data.head? = some '/' then filepathClean p else filepathJoin cwd p

/-- The directory part of a path: everything before the last separator; the
empty string stands for the root or the working directory. -/
def dirOf (p : String) : String :=
  ⟨((p.data.reverse.dropWhile (fun c => c ≠ '/')).drop 1).reverse⟩

/-! ## The file system -/

/-- What a path can name. -/
inductive Node where
  | dir
  | file (data : String)
  | symlink (target : String)
deriving DecidableEq, Repr

/-- The mutating system calls a handler can issue, with their outcome. -/
inductive SysCall where
  | rename (oldpath newpath : String) (ok : Bool)
  | mkdirAll (path : String) (ok : Bool)
  | remove (path : String) (ok : Bool)
  | symlink (target linkpath : String) (ok : Bool)
  | exec (cmd dir : String) (ok : Bool)
  | writeFile (path data : String) (ok : Bool)
deriving DecidableEq, Repr

/-- The path table. -/
abbrev FS := List (String × Node)

/-- The state handlers run against: the path table and the log of mutating calls. -/
structure World where
  fs : FS
  calls : List SysCall
deriving DecidableEq, Repr

/-- `errors.Is(err, fs.ErrNotExist)` or another failure. -/
inductive OSError where
  | notExist
  | other
deriving DecidableEq, Repr

def fsLookup (fs : FS) (p : String) : Option Node :=
  (fs.find? (fun e => decide (e.1 = p))).map (fun e => e.2)

def fsErase (fs : FS) (p : String) : FS := fs.filter (fun e => decide (e.1 ≠ p))

def fsSet (fs : FS) (p : String) (n : Node) : FS := (p, n) :: fsErase fs p

/-- A new entry can be created at `p`: its directory exists. -/
def parentIsDir (fs : FS) (p : String) : Bool :=
  decide (dirOf p = "") || decide (fsLookup fs (dirOf p) = some Node.dir)

/-- What the paths of the entries of the directory `d` start with. -/
def childPrefix (d : String) : List Char :=
  if d = "/" then ['/'] else if d = "." then [] else d.data ++ ['/']

/-- The name of `k` inside directory `d`, when `k` is an immediate child of `d`. -/
def childName (d k : String) : Option String :=
  if (childPrefix d).isPrefixOf k.data then
    if k.data.drop (childPrefix d).length ≠ [] ∧ '/' ∉ k.data.drop (childPrefix d).length then
      some ⟨k.data.drop (childPrefix d).length⟩
    else none
  else none

/-- `k` lies strictly below directory `d`. -/
def isUnder (d k : String) : Bool := (d.data ++ ['/']).isPrefixOf k.data

/-- An `os.DirEntry`, as far as the filters look at it. -/
structure OsDirEntry where
  name : String
  isDir : Bool
deriving DecidableEq, Repr

/-- The last element of a path: everything after the last separator. -/
def baseOf (p : String) : String :=
  ⟨(p.data.reverse.takeWhile (fun c => c ≠ '/')).reverse⟩

/-- The path of the entry `n` of the directory `d`. -/
def childPath (d n : String) : String :=
  if d = "/" then "/" ++ n else if d = "." then n else d ++ "/" ++ n

/-- The directory above the directory `d`. -/
def parentOfDir (d : String) : String :=
  if d = "/" then "/"
  else if d = "." ∨ baseOf d = ".." then childPath d ".."
  else if dirOf d = "" then (if d.data.head? = some '/' then "/" else ".")
  else dirOf d

/-- Path resolution as the kernel does it for `stat`: the directory part is
resolved first and has to be a directory (`ENOTDIR` otherwise), the last element
is looked up in it (`ENOENT` when missing), and a symbolic link is followed,
relative to the directory that holds it, at most `hops` times (`ELOOP`).  The
result is the resolved path with its node.  `fuel` bounds the recursion. -/
def resolvePath (fs : FS) : Nat → Nat → String → Except OSError (String × Node)
  | 0, _, _ => .error .other
  | fuel + 1, hops, p =>
    if p = "" then .error .notExist
    else if p = "/" ∨ p = "." then .ok (p, Node.dir)
    else
      let parent : Except OSError String :=
        if dirOf p = "" then .ok (if p.data.head? = some '/' then "/" else ".")
        else
          match resolvePath fs fuel hops (dirOf p) with
          | .error e => .error e
          | .ok (d, Node.dir) => .ok d
          | .ok _ => .error .other
      match parent with
      | .error e => .error e
      | .ok d =>
        if baseOf p = "" ∨ baseOf p = "." then .ok (d, Node.dir)
        else if baseOf p = ".." then .ok (parentOfDir d, Node.dir)
        else
          match fsLookup fs (childPath d (baseOf p)) with
          | none => .error .notExist
          | some (Node.symlink t) =>
            if hops = 0 then .error .other
            else if t = "" then .error .notExist
            else
              resolvePath fs fuel (hops - 1)
                (if t.data.head? = some '/' then filepathClean t else filepathJoin d t)
          | some n => .ok (childPath d (baseOf p), n)

/-- The recursion bound of `os.Stat`: more than any path the kernel takes needs. -/
def statFuel : Nat := 100000

/-- The number of symbolic links the kernel follows in one resolution. -/
def maxSymlinks : Nat := 40

/-- Go's `os.Stat`: the node the path resolves to, symbolic links followed; a
not-exist error when an element of the path is missing or a link dangles,
another error when a file stands where a directory is needed or the links do
not end. -/
def osStat (w : World) (p : String) : Except OSError Node :=
  match resolvePath w.fs statFuel maxSymlinks p with
  | .ok r => .ok r.2
  | .error e => .error e

/-- Go's `os.IsNotExist(err)` applied to the result of `os.Stat`. -/
def statIsNotExist (w : World) (p : String) : Bool :=
  match osStat w p with
  | .error .notExist => true
  | _ => false

/-- A map with string keys used as a set (`map[string]struct{}`): assignment of a key. -/
def setInsert (m : List String) (s : String) : List String :=
  if s ∈ m then m else m ++ [s]

/-- The set built by `for _, s := range l { m[s] = struct{}{} }`. -/
def makeSet (l : List String) : List String := l.foldl setInsert []

/-- The entries of the directory `d` of the table, sorted by file name. -/
def dirEntries (w : World) (d : String) : List OsDirEntry :=
  (sortStrings (makeSet (w.fs.filterMap (fun e => childName d e.1)))).map (fun n =>
    { name := n, isDir := decide (fsLookup w.fs (childPath d n) = some Node.dir) })

/-- Go's `os.ReadDir`: the entries of the directory the path resolves to, sorted
by file name; the error of the resolution, or another error when the path
resolves to something that is no directory. -/
def osReadDir (w : World) (p : String) : Except OSError (List OsDirEntry) :=
  match resolvePath w.fs statFuel maxSymlinks p with
  | .error e => .error e
  | .ok (d, Node.dir) => .ok (dirEntries w d)
  | .ok _ => .error .other

/-- All directories `os.MkdirAll` has to visit for a path, outermost first. -/
def pathPrefixes : List Char → List Char → List String
  | acc, [] => [⟨acc⟩]
  | acc, c :: cs =>
    if c = '/' ∧ acc ≠ [] then ⟨acc⟩ :: pathPrefixes (acc ++ [c]) cs
    else pathPrefixes (acc ++ [c]) cs

def mkdirSteps : FS → List String → Bool × FS
  | fs, [] => (true, fs)
  | fs, q :: qs =>
    match fsLookup fs q with
    | some Node.dir => mkdirSteps fs qs
    | some _ => (false, fs)
    | none => mkdirSteps (fsSet fs q Node.dir) qs

/-- Go's `os.MkdirAll`: creates the directory and any missing parent; fails when
a component is not a directory. -/
def osMkdirAll (w : World) (p : String) : Bool × World :=
  let r := mkdirSteps w.fs (pathPrefixes [] p.data)
  (r.1, { fs := r.2, calls := w.calls ++ [SysCall.mkdirAll p r.1] })

/-- Go's `os.Remove`: removes a file, a symlink or an empty directory. -/
def osRemove (w : World) (p : String) : Bool × World :=
  let ok : Bool :=
    match fsLookup w.fs p with
    | none => false
    | some Node.dir => !(w.fs.any (fun e => isUnder p e.1))
    | some _ => true
  (ok, { fs := if ok then fsErase w.fs p else w.fs, calls := w.calls ++ [SysCall.remove p ok] })

/-- Go's `os.Symlink(target, linkpath)`: fails when the link path is taken or its
directory is missing. -/
def osSymlink (w : World) (target linkpath : String) : Bool × World :=
  let ok : Bool := decide (fsLookup w.fs linkpath = none) && parentIsDir w.fs linkpath
  (ok, { fs := if ok then fsSet w.fs linkpath (Node.symlink target) else w.fs,
         calls := w.calls ++ [SysCall.symlink target linkpath ok] })

/-- Go's `os.WriteFile`: creates or truncates the file; fails when the path is a
directory or its directory is missing. -/
def osWriteFile (w : World) (p data : String) : Bool × World :=
  let ok : Bool := decide (fsLookup w.fs p ≠ some Node.dir) && parentIsDir w.fs p
  (ok, { fs := if ok then fsSet w.fs p (Node.file data) else w.fs,
         calls := w.calls ++ [SysCall.writeFile p data ok] })

/-- The path an entry below `oldpath` has after `oldpath` became `newpath`. -/
def movePath (oldpath newpath k : String) : String :=
  if k = oldpath then newpath
  else if isUnder oldpath k then ⟨newpath.data ++ k.data.drop oldpath.data.length⟩
  else k

/-- Go's `os.Rename`: moves `oldpath` with everything below it to `newpath`.  It
fails when `oldpath` is missing, when the directory of `newpath` is missing, when
`newpath` lies below `oldpath`, and when `newpath` is taken by something it
cannot replace (a directory replaces only an empty directory, a file or link
only a non-directory). -/
def osRename (w : World) (oldpath newpath : String) : Bool × World :=
  let ok : Bool :=
    match fsLookup w.fs oldpath with
    | none => false
    | some src =>
      parentIsDir w.fs newpath && !(isUnder oldpath newpath) &&
      (match fsLookup w.fs newpath with
       | none => true
       | some Node.dir => decide (src = Node.dir) && !(w.fs.any (fun e => isUnder newpath e.1))
       | some _ => decide (src ≠ Node.dir))
  let fs1 : FS :=
    if oldpath = newpath then w.fs
    else (fsErase w.fs newpath).map (fun e => (movePath oldpath newpath e.1, e.2))
  (ok, { fs := if ok then fs1 else w.fs, calls := w.calls ++ [SysCall.rename oldpath newpath ok] })

/-! ## config.go -/

structure RepoConfig where
  ID : String
  Paths : List String
  TagDir : String
deriving DecidableEq, Repr

structure AppConfig where
  BasePath : String
  TagsBase : String
  Repos : List RepoConfig
deriving DecidableEq, Repr

/-- The loop of `GetRepoPaths` over `c.Repos`: the first entry with the given ID
decides. -/
def getRepoPathsLoop (basePath repoID : String) : List RepoConfig → Except String (List String)
  | [] => .error ("repo '" ++ repoID ++ "' not found in config file")
  | repo :: rest =>
    if repo.ID = repoID then .ok (repo.Paths.map (fun p => filepathJoin basePath p))
    else getRepoPathsLoop basePath repoID rest

/-- The method `(c *AppConfig) GetRepoPaths`.  The receiver is a pointer and the
method runs inside a process that owns the file system, so the embedding hands
back the configuration and the world next to the result. -/
def AppConfig.GetRepoPaths (c : AppConfig) (repoID : String) (w : World) :
    Except String (List String) × AppConfig × World :=
  (getRepoPathsLoop c.BasePath repoID c.Repos, c, w)

/-- The loop of `GetTagsPathForRepo`: the first entry with the given ID and a
non-empty `TagDir` decides. -/
def getTagsPathLoop (tagsBase repoID : String) : List RepoConfig → String
  | [] => tagsBase
  | repo :: rest =>
    if repo.ID = repoID ∧ repo.TagDir ≠ "" then repo.TagDir
    else getTagsPathLoop tagsBase repoID rest

/-- The method `(c *AppConfig) GetTagsPathForRepo`. -/
def AppConfig.GetTagsPathForRepo (c : AppConfig) (repoID : String) : String :=
  getTagsPathLoop c.TagsBase repoID c.Repos

/-! ## utils.go -/

/-- The function `listDirContents`: the names of the entries of `path` that pass
`filter`; a missing directory gives an empty list and no error. -/
def listDirContents (w : World) (path : String) (filter : OsDirEntry → Bool) :
    List String × Option OSError :=
  match osReadDir w path with
  | .error .notExist => ([], none)
  | .error e => ([], some e)
  | .ok entries => ((entries.filter filter).map (fun e => e.name), none)

/-- The filter `func(e os.DirEntry) bool { return strings.HasSuffix(e.Name(), ".rpm") }`. -/
def isRpmEntry (e : OsDirEntry) : Bool := stringsHasSuffix e.name ".rpm"

/-! ## HTTP -/

/-- Go's `url.Values` and `http.Header`: keys with their list of values. -/
abbrev Values := List (String × List String)

/-- The method `Get` of `url.Values` and `http.Header`: the first value of the
key, or the empty string. -/
def valuesGet (v : Values) (key : String) : String :=
  match (v.find? (fun e => decide (e.1 = key))).map (fun e => e.2) with
  | some (x :: _) => x
  | _ => ""

structure Request where
  query : Values
  header : Values
deriving DecidableEq, Repr

/-- The JSON bodies the create-tag handler writes. -/
inductive Body where
  | error (msg : String)
  | summary (folder tag date : String) (file_count diff_count : Nat) (backup_created : Bool)
deriving DecidableEq, Repr

structure Response where
  status : Nat
  body : Body
deriving DecidableEq, Repr

/-- The function `jsonResponse`. -/
def jsonResponse (status : Nat) (data : Body) : Response := { status := status, body := data }

/-! ## middleware.go -/

/-- What `AuthMiddleware` does with a request: answer through `http.Error`, or
call `next.ServeHTTP`. -/
inductive AuthOutcome where
  | httpError (msg : String) (code : Nat)
  | serveNext
deriving DecidableEq, Repr

/-- The function `AuthMiddleware`; `getenv` is `os.Getenv` and `lower` the rune
mapping of `strings.ToLower`. -/
def AuthMiddleware (getenv : String → String) (lower : Char → Char) (r : Request) : AuthOutcome :=
  let requiredToken := getenv "RPM_API_TOKEN"
  let requiredToken := if requiredToken = "" then "changeme" else requiredToken
  let authHeader := valuesGet r.header "Authorization"
  if authHeader = "" then .httpError "Unauthorized" 401
  else
    let parts := stringsSplitSpace authHeader
    if parts.length ≠ 2 ∨ stringsToLower lower (parts.getD 0 "") ≠ "bearer" then
      .httpError "Unauthorized: Invalid token format" 401
    else if parts.getD 1 "" ≠ requiredToken then
      .httpError "Unauthorized: Invalid token" 401
    else .serveNext

/-! ## handlers_api.go -/

/-- The loop of `nextAvailableBackup`; one unit of fuel per `os.Stat`.  The
counter is a Go `int`, which cannot wrap before 2^63 probes have found an
existing path; it is kept as a natural number. -/
def nextAvailableBackupLoop (w : World) (base : String) : Nat → Nat → String → Option String
  | 0, _, _ => none
  | fuel + 1, count, candidate =>
    if statIsNotExist w candidate then some candidate
    else nextAvailableBackupLoop w base fuel (count + 1) (sprintfBackup base (count + 1))

/-- The function `nextAvailableBackup`. -/
def nextAvailableBackup (w : World) (base : String) (fuel : Nat) : Option String :=
  nextAvailableBackupLoop w base fuel 0 base

/-- The record `createDiff` builds and writes as `diff.json`. -/
structure DiffRecord where
  from_ : String
  to_ : String
  added : List String
  removed : List String
  timestamp : String
deriving DecidableEq, Repr

/-- What the handlers take from their surroundings: the date and the timestamp
`time.Now()` formats to, the working directory, `json.MarshalIndent`, the
external `createrepo_c` run in a directory, and the fuel of unbounded loops. -/
structure Env where
  today : String
  now : String
  cwd : String
  marshal : DiffRecord → Option String
  createrepo : String → FS → Bool × FS
  fuel : Nat

/-- The names `createDiff` collects from one set that are missing in the other
(`for item := range a { if _, found := b[item]; !found { ... } }`).  Go ranges
over a map in no fixed order; both results are sorted before use. -/
def notFoundIn (a b : List String) : List String := a.filter (fun item => decide (item ∉ b))

/-- The unsorted `added` of `createDiff`. -/
def diffAdded (oldRPMs newRPMs : List String) : List String :=
  notFoundIn (makeSet newRPMs) (makeSet oldRPMs)

/-- The unsorted `removed` of `createDiff`. -/
def diffRemoved (oldRPMs newRPMs : List String) : List String :=
  notFoundIn (makeSet oldRPMs) (makeSet newRPMs)

/-- The map literal `diff` of `createDiff`. -/
def diffRecordOf (env : Env) (oldRPMs newRPMs : List String) (backupDir newTagType : String) :
    DiffRecord :=
  { from_ := filepathBase backupDir, to_ := newTagType,
    added := sortStrings (diffAdded oldRPMs newRPMs),
    removed := sortStrings (diffRemoved oldRPMs newRPMs),
    timestamp := env.now }

/-- The function `createDiff`: the record, or `none` for Go's `nil`. -/
def createDiff (env : Env) (oldRPMs newRPMs : List String) (backupDir newTagType : String)
    (w : World) : Option DiffRecord × World :=
  let added := diffAdded oldRPMs newRPMs
  let removed := diffRemoved oldRPMs newRPMs
  if added.length = 0 ∧ removed.length = 0 then (none, w)
  else
    let diff := diffRecordOf env oldRPMs newRPMs backupDir newTagType
    let diffPath := filepathJoin backupDir "diff.json"
    match env.marshal diff with
    | none => (none, w)
    | some data =>
      match osWriteFile w diffPath data with
      | (false, w1) => (none, w1)
      | (true, w1) => (some diff, w1)

/-- The inner loop of `createTagHandler` over the packages of one source
directory: remove a stale link, link, and count the package when the link was
made. -/
def linkRpms (env : Env) (liveDir sourcePath : String) :
    List String → List String → World → List String × World
  | [], newRpms, w => (newRpms, w)
  | rpmName :: rest, newRpms, w =>
    let src := filepathAbs env.cwd (filepathJoin sourcePath rpmName)
    let dst := filepathJoin liveDir rpmName
    let w1 := (osRemove w dst).2
    match osSymlink w1 src dst with
    | (false, w2) => linkRpms env liveDir sourcePath rest newRpms w2
    | (true, w2) => linkRpms env liveDir sourcePath rest (newRpms ++ [rpmName]) w2

/-- The outer loop of `createTagHandler` over the source directories. -/
def linkSources (env : Env) (liveDir : String) :
    List String → List String → World → List String × World
  | [], newRpms, w => (newRpms, w)
  | sourcePath :: rest, newRpms, w =>
    let rpmsInPath := (listDirContents w sourcePath isRpmEntry).1
    let r := linkRpms env liveDir sourcePath rpmsInPath newRpms w
    linkSources env liveDir rest r.1 r.2

/-- Go's `exec.Command("createrepo_c", ".")` run with `cmd.Dir = dir`. -/
def runCreaterepo (env : Env) (w : World) (dir : String) : Bool × World :=
  let r := env.createrepo dir w.fs
  (r.1, { fs := r.2, calls := w.calls ++ [SysCall.exec "createrepo_c" dir r.1] })

/-- The second half of `createTagHandler`, from `os.MkdirAll` on. -/
def createTagFinish (env : Env) (folder tagType today liveDir backupDir : String)
    (sourcePaths prevRpms : List String) (backupCreated : Bool) (w : World) : Response × World :=
  match osMkdirAll w liveDir with
  | (false, w1) => (jsonResponse 500 (.error "Failed to create new live directory"), w1)
  | (true, w1) =>
    let linked := linkSources env liveDir sourcePaths [] w1
    let newRpms := linked.1
    match runCreaterepo env linked.2 liveDir with
    | (false, w2) => (jsonResponse 500 (.error "createrepo_c execution failed"), w2)
    | (true, w2) =>
      let d := createDiff env prevRpms newRpms backupDir tagType w2
      let diffCount :=
        match d.1 with
        | some diffInfo => diffInfo.added.length + diffInfo.removed.length
        | none => 0
      (jsonResponse 200 (.summary folder tagType today newRpms.length diffCount backupCreated), d.2)

/-- The function `createTagHandler`; `none` when the probe for a backup name ran
out of fuel. -/
def createTagHandler (env : Env) (config : AppConfig) (r : Request) (w : World) :
    Option (Response × World) :=
  let folder := valuesGet r.query "folder"
  let tagType := valuesGet r.query "type"
  if folder = "" ∨ (tagType ≠ "monthly" ∧ tagType ≠ "half-monthly") then
    some (jsonResponse 400 (.error "Invalid folder or tag type"), w)
  else
    match config.GetRepoPaths folder w with
    | (.error err, _, w) => some (jsonResponse 400 (.error err), w)
    | (.ok sourcePaths, config, w) =>
      let repoTagDir := config.GetTagsPathForRepo folder
      let today := env.today
      let liveDir := filepathJoin repoTagDir tagType
      let backupBase := filepathJoin repoTagDir (tagType ++ "_" ++ today)
      match nextAvailableBackup w backupBase env.fuel with
      | none => none
      | some backupDir =>
        match osStat w liveDir with
        | .ok _ =>
          match osRename w liveDir backupDir with
          | (false, w1) => some (jsonResponse 500 (.error "Failed to backup live directory"), w1)
          | (true, w1) =>
            let prevRpms := (listDirContents w1 backupDir isRpmEntry).1
            some (createTagFinish env folder tagType today liveDir backupDir sourcePaths
              prevRpms true w1)
        | .error _ =>
          some (createTagFinish env folder tagType today liveDir backupDir sourcePaths [] false w)

/-! ## handlers_browser.go -/

/-- The template row `DirEntry` of the browser. -/
structure DirEntry where
  Name : String
  URL : String
  Size : String
  Modified : String
  RPMCount : String
  IsDir : Bool
  HasDiff : Bool
  DiffURL : String
  Icon : String
  IsActive : Bool
deriving DecidableEq, Repr

/-- Go's `sort.Slice` with the comparison `less`: an ascending rearrangement. -/
def sortSlice {α : Type} (less : α → α → Bool) (l : List α) : List α :=
  l.insertionSort (fun a b => less b a = false)

/-- The comparison passed to `sort.Slice` in `serveDirectoryListing`. -/
def entryLess (a b : DirEntry) : Bool :=
  if a.IsDir ≠ b.IsDir then a.IsDir else strLess a.Name b.Name

/-- The sort at the end of `serveDirectoryListing`: what the template renders. -/
def sortListing (entries : List DirEntry) : List DirEntry := sortSlice entryLess entries

/-- Assignment `m[k] = v` on a Go `map[string]string`. -/
def mapAssign (m : List (String × String)) (k v : String) : List (String × String) :=
  (k, v) :: m.filter (fun e => decide (e.1 ≠ k))

/-- Lookup `v, ok := m[k]` on a Go `map[string]string`. -/
def mapGet (m : List (String × String)) (k : String) : Option String :=
  (m.find? (fun e => decide (e.1 = k))).map (fun e => e.2)

/-- The `repoPathMap` that `browserHandler` builds when it is constructed. -/
def repoPathMap (config : AppConfig) : List (String × String) :=
  config.Repos.foldl
    (fun m repo =>
      if repo.TagDir ≠ "" then mapAssign m repo.ID repo.TagDir
      else mapAssign m repo.ID config.TagsBase)
    []


/-! ## Names used in the statements -/

/-- A single path element other than `.` and `..`: a file or directory name. -/
def SimpleName (x : String) : Prop :=
  x.data ≠ [] ∧ '/' ∉ x.data ∧ x.data ≠ ['.'] ∧ x.data ≠ ['.', '.']

/-- What `filepath.Clean` can have written: non-empty elements without separator,
none of them `.`, with `..` only below every other element and never under the
root. -/
def CleanStack (rooted : Bool) (st : List (List Char)) : Prop :=
  (∀ e ∈ st, e ≠ [] ∧ '/' ∉ e ∧ e ≠ ['.']) ∧
  st.Pairwise (fun a b => a = ['.', '.'] → b = ['.', '.']) ∧
  (rooted = true → ∀ e ∈ st, e ≠ ['.', '.'])

/-- A cleaned path that has a last element (not `.`, not the root). -/
def CleanNamed (P : String) : Prop := ∃ q : List Char, P.data = cleanChars q ∧ cleanStack q ≠ []

/-- What `filepath.Join` puts in front of a name joined to the directory `T`. -/
def joinPre (T : String) : List Char :=
  if T = "" then []
  else if cleanStack T.data = [] then (if isRooted T.data then ['/'] else [])
  else cleanChars T.data ++ ['/']

/-- The sequence of names `nextAvailableBackup` probes: `base`, `base_1`, `base_2`, ... -/
def backupCandidate (base : String) (k : Nat) : String :=
  if k = 0 then base else sprintfBackup base k

/-- Equality of two strings up to the case of the letters A to Z. -/
def equalIgnoreCase (a b : String) : Prop := a.data.map Char.toLower = b.data.map Char.toLower

/-- The token `AuthMiddleware` requires: the value of `RPM_API_TOKEN`, or
`changeme` when it is unset or empty. -/
def requiredTokenOf (getenv : String → String) : String :=
  if getenv "RPM_API_TOKEN" = "" then "changeme" else getenv "RPM_API_TOKEN"

/-- The tag directory a repository entry stands for: its `tag_dir` override when
that is set, the shared tags base otherwise. -/
def tagDirOf (c : AppConfig) (repo : RepoConfig) : String :=
  if repo.TagDir ≠ "" then repo.TagDir else c.TagsBase

/-- A configuration in which one ID is carried by three entries with different overrides. -/
def dupConfig : AppConfig :=
  { BasePath := "/srv", TagsBase := "repo/tags",
    Repos := [⟨"a", ["el8"], ""⟩, ⟨"a", ["el9"], "/x"⟩, ⟨"a", [], ""⟩] }

/-- The number of links made: the successful `os.Symlink` calls in a call log. -/
def linkedCount (calls : List SysCall) : Nat :=
  calls.countP (fun c => match c with
    | SysCall.symlink _ _ true => true
    | _ => false)

/-- The number of files written: the successful `os.WriteFile` calls in a call log. -/
def writtenCount (calls : List SysCall) : Nat :=
  calls.countP (fun c => match c with
    | SysCall.writeFile _ _ true => true
    | _ => false)

/-- The number of links that could not be made: the failed `os.Symlink` calls in a call log. -/
def failedLinkCount (calls : List SysCall) : Nat :=
  calls.countP (fun c => match c with
    | SysCall.symlink _ _ false => true
    | _ => false)

/-- A successful `os.Symlink` call. -/
def isLinkMade : SysCall → Bool
  | SysCall.symlink _ _ true => true
  | _ => false

/-- The links made: the successful `os.Symlink` calls of a call log, in order. -/
def linksMade (calls : List SysCall) : List SysCall := calls.filter isLinkMade

/-- The call that links the package `pr.2` of the source directory `pr.1` into the live
directory `L`. -/
def linkCall (env : Env) (L : String) (pr : String × String) : SysCall :=
  SysCall.symlink (filepathAbs env.cwd (filepathJoin pr.1 pr.2)) (filepathJoin L pr.2) true

/-- Every entry of the path table is found by `os.Stat`: no entry below a missing
directory, no dangling link. -/
def Reachable (w : World) : Prop := ∀ e ∈ w.fs, statIsNotExist w e.1 = false

/-- Every entry of the path table sits in a directory of the table. -/
def FSWellFormed (fs : FS) : Prop := ∀ e ∈ fs, parentIsDir fs e.1 = true

/-- The external tool changes nothing outside the directory it is run in. -/
def CreaterepoLocal (env : Env) : Prop :=
  ∀ (d : String) (fs : FS) (k : String), isUnder d k = false →
    fsLookup (env.createrepo d fs).2 k = fsLookup fs k

/-- A path that work inside the directory `L` cannot create: longer than `L` and
not below it. -/
def Foreign (L k : String) : Prop := L.data.length < k.data.length ∧ isUnder L k = false

/-! ## Concrete inputs -/

/-- A `createrepo_c` stand-in: it creates `repodata` in the directory it runs in. -/
def demoCreaterepo (d : String) (fs : FS) : Bool × FS := (true, fsSet fs (d ++ "/repodata") Node.dir)

/-- The names of a list, each preceded by a blank. -/
def joinNames : List String → String
  | [] => ""
  | n :: ns => " " ++ n ++ joinNames ns

def demoEnv : Env where
  today := "2024-01-02"
  now := "2024-01-02T03:04:05Z"
  cwd := "/app"
  marshal := fun d =>
    some (d.from_ ++ " -> " ++ d.to_ ++ " +" ++ joinNames d.added ++ " -" ++ joinNames d.removed)
  createrepo := demoCreaterepo
  fuel := 8

/-- Repository `alpha` with one source directory. -/
def demoConfig : AppConfig :=
  { BasePath := "/srv", TagsBase := "/tags", Repos := [⟨"alpha", ["el8"], ""⟩] }

/-- The source directory of `alpha` holds `pkg-1.0.rpm`; no tag exists yet. -/
def demoWorld : World :=
  { fs := [("/srv", Node.dir), ("/srv/el8", Node.dir),
           ("/srv/el8/pkg-1.0.rpm", Node.file "rpm")],
    calls := [] }

def demoRequest : Request :=
  { query := [("folder", ["alpha"]), ("type", ["monthly"])],
    header := [("Authorization", ["Bearer changeme"])] }

/-- What `createTagHandler` answers and leaves behind on `demoWorld`. -/
def demoResult : Response × World :=
  (jsonResponse 200 (.summary "alpha" "monthly" "2024-01-02" 1 0 false),
   { fs := [("/tags/monthly/repodata", Node.dir),
            ("/tags/monthly/pkg-1.0.rpm", Node.symlink "/srv/el8/pkg-1.0.rpm"),
            ("/tags/monthly", Node.dir), ("/tags", Node.dir),
            ("/srv", Node.dir), ("/srv/el8", Node.dir),
            ("/srv/el8/pkg-1.0.rpm", Node.file "rpm")],
     calls := [SysCall.mkdirAll "/tags/monthly" true,
               SysCall.remove "/tags/monthly/pkg-1.0.rpm" false,
               SysCall.symlink "/srv/el8/pkg-1.0.rpm" "/tags/monthly/pkg-1.0.rpm" true,
               SysCall.exec "createrepo_c" "/tags/monthly" true,
               SysCall.writeFile "/tags/monthly_2024-01-02/diff.json"
                 "monthly_2024-01-02 -> monthly + pkg-1.0.rpm -" false] })

/-- A request without the folder parameter. -/
def badRequest : Request := { query := [("type", ["monthly"])], header := [] }

/-- Repository `alpha` with two source directories. -/
def twoSourceConfig : AppConfig :=
  { BasePath := "/srv", TagsBase := "/tags", Repos := [⟨"alpha", ["el8", "el9"], ""⟩] }

/-- Both source directories of `alpha` hold a file named `pkg-1.0.rpm`. -/
def twoSourceWorld : World :=
  { fs := [("/srv", Node.dir), ("/srv/el8", Node.dir), ("/srv/el8/pkg-1.0.rpm", Node.file "a"),
           ("/srv/el9", Node.dir), ("/srv/el9/pkg-1.0.rpm", Node.file "b")],
    calls := [] }

/-- A backup directory of today exists twice already. -/
def backupWorld : World :=
  { fs := [("/tags", Node.dir), ("/tags/monthly_2024-01-02", Node.dir),
           ("/tags/monthly_2024-01-02_1", Node.dir)],
    calls := [] }

/-- The record `createDiff` returns on `["b.rpm", "a.rpm", "a.rpm"]` against
`["c.rpm", "a.rpm", "d.rpm", "c.rpm"]`. -/
def demoDiff : DiffRecord :=
  { from_ := "monthly_2024-01-02", to_ := "monthly", added := ["c.rpm", "d.rpm"],
    removed := ["b.rpm"], timestamp := "2024-01-02T03:04:05Z" }

/-- The state after the first tag of `alpha`, with `pkg-1.0.rpm` taken out of the
source directory and `pkg-2.0.rpm` put in. -/
def secondWorld : World :=
  { fs := [("/tags/monthly/repodata", Node.dir),
           ("/tags/monthly/pkg-1.0.rpm", Node.symlink "/srv/el8/pkg-1.0.rpm"),
           ("/tags/monthly", Node.dir), ("/tags", Node.dir),
           ("/srv", Node.dir), ("/srv/el8", Node.dir),
           ("/srv/el8/pkg-2.0.rpm", Node.file "rpm")],
    calls := [] }

/-- A regular file stands where the tag directory should be. -/
def fileParentWorld : World := { fs := [("/t", Node.file "x")], calls := [] }

/-- A regular file named like the live directory stands in the tags directory. -/
def fileAtLiveWorld : World :=
  { fs := [("/srv", Node.dir), ("/srv/el8", Node.dir),
           ("/srv/el8/pkg-1.0.rpm", Node.file "rpm"),
           ("/tags", Node.dir), ("/tags/monthly", Node.file "x")],
    calls := [] }

/-! ## filepath.Clean and filepath.Join -/

theorem splitSlash_ne_nil (p : List Char) : splitSlash p ≠ [] := by
  cases p with
  | nil => simp [splitSlash]
  | cons c cs =>
    unfold splitSlash
    split_ifs
    · simp
    · split <;> simp

theorem splitSlash_append (x y : List Char) :
    splitSlash (x ++ '/' :: y) = splitSlash x ++ splitSlash y := by
  induction x with
  | nil => simp [splitSlash]
  | cons c cs ih =>
    by_cases hc : c = '/'
    · simp [splitSlash, hc, ih]
    · have h1 : splitSlash (c :: (cs ++ '/' :: y)) =
          (match splitSlash (cs ++ '/' :: y) with
            | [] => [[c]]
            | h :: t => (c :: h) :: t) := by
        rw [splitSlash]; simp [hc]
      have h2 : splitSlash (c :: cs) =
          (match splitSlash cs with
            | [] => [[c]]
            | h :: t => (c :: h) :: t) := by
        rw [splitSlash]; simp [hc]
      rw [List.cons_append, h1, h2, ih]
      cases hs : splitSlash cs with
      | nil => exact absurd hs (splitSlash_ne_nil cs)
      | cons h t => simp

theorem splitSlash_simple (e : List Char) (h : '/' ∉ e) : splitSlash e = [e] := by
  induction e with
  | nil => rfl
  | cons c cs ih =>
    have hc : c ≠ '/' := fun e => h (e ▸ List.mem_cons_self _ _)
    have hcs : '/' ∉ cs := fun m => h (List.mem_cons_of_mem _ m)
    rw [splitSlash]
    simp [hc, ih hcs]

theorem mem_splitSlash_noslash (p : List Char) : ∀ e ∈ splitSlash p, '/' ∉ e := by
  induction p with
  | nil => intro e he; simp [splitSlash] at he; subst he; simp
  | cons c cs ih =>
    intro e he
    by_cases hc : c = '/'
    · simp only [splitSlash, hc, if_true, List.mem_cons] at he
      rcases he with he | he
      · subst he; simp
      · exact ih e he
    · rw [splitSlash] at he
      simp only [hc, if_false] at he
      cases hs : splitSlash cs with
      | nil => exact absurd hs (splitSlash_ne_nil cs)
      | cons h t =>
        rw [hs] at he
        simp only [List.mem_cons] at he
        rcases he with he | he
        · subst he
          have := ih h (by rw [hs]; exact List.mem_cons_self _ _)
          intro m
          rcases List.mem_cons.mp m with m | m
          · exact hc m.symm
          · exact this m
        · exact ih e (by rw [hs]; exact List.mem_cons_of_mem _ he)

theorem joinSlash_cons_cons (e e2 : List Char) (rest : List (List Char)) :
    joinSlash (e :: e2 :: rest) = e ++ '/' :: joinSlash (e2 :: rest) := rfl

theorem joinSlash_snoc (es : List (List Char)) (x : List Char) (h : es ≠ []) :
    joinSlash (es ++ [x]) = joinSlash es ++ '/' :: x := by
  induction es with
  | nil => exact absurd rfl h
  | cons e rest ih =>
    cases rest with
    | nil => rfl
    | cons e2 rest2 =>
      have := ih (List.cons_ne_nil _ _)
      rw [List.cons_append, List.cons_append, joinSlash_cons_cons, ← List.cons_append, this,
        joinSlash_cons_cons]
      simp

theorem splitSlash_joinSlash (es : List (List Char)) (h : ∀ e ∈ es, '/' ∉ e) (hne : es ≠ []) :
    splitSlash (joinSlash es) = es := by
  induction es with
  | nil => exact absurd rfl hne
  | cons e rest ih =>
    cases rest with
    | nil => exact splitSlash_simple e (h e (List.mem_cons_self _ _))
    | cons e2 rest2 =>
      rw [joinSlash_cons_cons, splitSlash_append,
        splitSlash_simple e (h e (List.mem_cons_self _ _)),
        ih (fun x hx => h x (List.mem_cons_of_mem _ hx)) (List.cons_ne_nil _ _)]
      rfl

theorem cleanStep_simple (r : Bool) (st : List (List Char)) (e : List Char)
    (h1 : e ≠ []) (h2 : e ≠ ['.']) (h3 : e ≠ ['.', '.']) : cleanStep r st e = e :: st := by
  simp [cleanStep, h1, h2, h3]

theorem cleanStep_skip (r : Bool) (st : List (List Char)) (e : List Char)
    (h : e = [] ∨ e = ['.']) : cleanStep r st e = st := by
  simp [cleanStep, h]

theorem cleanStep_dotdot_nil (r : Bool) :
    cleanStep r [] ['.', '.'] = if r then [] else [['.', '.']] := by
  simp [cleanStep]

theorem cleanStep_dotdot_dotdot (r : Bool) (rest : List (List Char)) :
    cleanStep r (['.', '.'] :: rest) ['.', '.'] =
      if r then ['.', '.'] :: rest else ['.', '.'] :: ['.', '.'] :: rest := by
  simp [cleanStep]

theorem cleanStep_dotdot_pop (r : Bool) (top : List Char) (rest : List (List Char))
    (h : top ≠ ['.', '.']) : cleanStep r (top :: rest) ['.', '.'] = rest := by
  simp [cleanStep, h]

theorem cleanStep_stack (r : Bool) (st : List (List Char)) (e : List Char)
    (hst : CleanStack r st) (he : '/' ∉ e) : CleanStack r (cleanStep r st e) := by
  obtain ⟨h1, h2, h3⟩ := hst
  by_cases c1 : e = [] ∨ e = ['.']
  · rw [cleanStep_skip r st e c1]
    exact ⟨h1, h2, h3⟩
  · have c1' : e ≠ [] ∧ e ≠ ['.'] := ⟨fun x => c1 (Or.inl x), fun x => c1 (Or.inr x)⟩
    by_cases c2 : e = ['.', '.']
    · subst c2
      cases st with
      | nil =>
        rw [cleanStep_dotdot_nil]
        cases r
        · refine ⟨?_, by simp, by simp⟩
          intro x hx
          have : x = ['.', '.'] := by simpa using hx
          subst this
          decide
        · exact ⟨by simp, by simp, by simp⟩
      | cons top rest =>
        by_cases c3 : top = ['.', '.']
        · subst c3
          rw [cleanStep_dotdot_dotdot]
          cases r
          · have hall : ∀ b ∈ rest, b = ['.', '.'] :=
              fun b hb => (List.pairwise_cons.mp h2).1 b hb rfl
            refine ⟨?_, ?_, by simp⟩
            · intro x hx
              rcases List.mem_cons.mp hx with hx | hx
              · subst hx; decide
              · exact h1 x hx
            · refine List.pairwise_cons.mpr ⟨?_, h2⟩
              intro b hb _
              rcases List.mem_cons.mp hb with hb | hb
              · exact hb
              · exact hall b hb
          · exact ⟨h1, h2, h3⟩
        · rw [cleanStep_dotdot_pop r top rest c3]
          exact ⟨fun x hx => h1 x (List.mem_cons_of_mem _ hx), (List.pairwise_cons.mp h2).2,
            fun hr x hx => h3 hr x (List.mem_cons_of_mem _ hx)⟩
    · rw [cleanStep_simple r st e c1'.1 c1'.2 c2]
      refine ⟨?_, ?_, ?_⟩
      · intro x hx
        rcases List.mem_cons.mp hx with hx | hx
        · subst hx; exact ⟨c1'.1, he, c1'.2⟩
        · exact h1 x hx
      · exact List.pairwise_cons.mpr ⟨fun b _ hb => absurd hb c2, h2⟩
      · intro hr x hx
        rcases List.mem_cons.mp hx with hx | hx
        · subst hx; exact c2
        · exact h3 hr x hx

theorem foldl_cleanStep_stack (r : Bool) :
    ∀ (es : List (List Char)) (st : List (List Char)), CleanStack r st → (∀ e ∈ es, '/' ∉ e) →
      CleanStack r (es.foldl (cleanStep r) st)
  | [], _, h, _ => h
  | e :: es, st, h, hes =>
    foldl_cleanStep_stack r es _ (cleanStep_stack r st e h (hes e (List.mem_cons_self _ _)))
      (fun x hx => hes x (List.mem_cons_of_mem _ hx))

theorem cleanStack_stack (p : List Char) : CleanStack (isRooted p) (cleanStack p) :=
  foldl_cleanStep_stack _ _ [] ⟨by simp, by simp, by simp⟩ (mem_splitSlash_noslash p)

/-- Reading the written elements again writes them again. -/
theorem foldl_cleanStep_replay (r : Bool) :
    ∀ st : List (List Char), CleanStack r st → st.reverse.foldl (cleanStep r) [] = st
  | [], _ => rfl
  | top :: rest, h => by
    obtain ⟨h1, h2, h3⟩ := h
    have hrest : CleanStack r rest :=
      ⟨fun e he => h1 e (List.mem_cons_of_mem _ he), (List.pairwise_cons.mp h2).2,
        fun hr e he => h3 hr e (List.mem_cons_of_mem _ he)⟩
    rw [List.reverse_cons, List.foldl_append, foldl_cleanStep_replay r rest hrest]
    simp only [List.foldl_cons, List.foldl_nil]
    obtain ⟨t1, _, t3⟩ := h1 top (List.mem_cons_self _ _)
    by_cases c : top = ['.', '.']
    · have hr : r = false := by
        cases r
        · rfl
        · exact absurd c (h3 rfl top (List.mem_cons_self _ _))
      subst hr
      subst c
      cases rest with
      | nil => rw [cleanStep_dotdot_nil]; rfl
      | cons t ts =>
        have : t = ['.', '.'] := (List.pairwise_cons.mp h2).1 t (List.mem_cons_self _ _) rfl
        subst this
        rw [cleanStep_dotdot_dotdot]; rfl
    · exact cleanStep_simple r rest top t1 t3 c

theorem isRooted_append (p q : List Char) (h : p ≠ []) : isRooted (p ++ q) = isRooted p := by
  cases p with
  | nil => exact absurd rfl h
  | cons c cs => rfl

theorem head?_joinSlash (e : List Char) (es : List (List Char)) (h : e ≠ []) :
    (joinSlash (e :: es)).head? = e.head? := by
  cases es with
  | nil => rfl
  | cons e2 rest =>
    rw [joinSlash_cons_cons]
    cases e with
    | nil => exact absurd rfl h
    | cons c cs => rfl

theorem renderClean_ne_nil (r : Bool) (st : List (List Char)) (h : CleanStack r st) :
    renderClean r st ≠ [] := by
  unfold renderClean
  split_ifs with h1 h2
  · simp
  · simp
  · intro e
    have hne : st.reverse ≠ [] := by simpa using h2
    cases hs : st.reverse with
    | nil => exact hne hs
    | cons x xs =>
      have hx : x ∈ st := by
        have : x ∈ st.reverse := by rw [hs]; exact List.mem_cons_self _ _
        simpa using this
      have := congrArg List.head? e
      rw [hs, head?_joinSlash x xs (h.1 x hx).1] at this
      cases x with
      | nil => exact (h.1 _ hx).1 rfl
      | cons c cs => simp at this

theorem isRooted_renderClean (r : Bool) (st : List (List Char)) (h : CleanStack r st) :
    isRooted (renderClean r st) = r := by
  unfold renderClean
  cases r
  · simp only [Bool.false_eq_true, if_false]
    split_ifs with h2
    · decide
    · have hne : st.reverse ≠ [] := by simpa using h2
      cases hs : st.reverse with
      | nil => exact absurd hs hne
      | cons x xs =>
        have hx : x ∈ st := by
          have : x ∈ st.reverse := by rw [hs]; exact List.mem_cons_self _ _
          simpa using this
        obtain ⟨x1, x2, _⟩ := h.1 x hx
        unfold isRooted
        rw [head?_joinSlash x xs x1]
        cases x with
        | nil => exact absurd rfl x1
        | cons c cs =>
          have : c ≠ '/' := fun e => x2 (e ▸ List.mem_cons_self _ _)
          simp [this]
  · simp [isRooted]

/-- Reading a cleaned path gives back the elements it was rendered from. -/
theorem foldl_splitSlash_render (r : Bool) (st : List (List Char)) (h : CleanStack r st) :
    (splitSlash (renderClean r st)).foldl (cleanStep r) [] = st := by
  have hslash : ∀ e ∈ st.reverse, '/' ∉ e := fun e he => (h.1 e (by simpa using he)).2.1
  unfold renderClean
  cases r
  · simp only [Bool.false_eq_true, if_false]
    split_ifs with h2
    · subst h2; simp [splitSlash, cleanStep]
    · rw [splitSlash_joinSlash _ hslash (by simpa using h2)]
      exact foldl_cleanStep_replay false st h
  · simp only [if_true]
    have hsp : splitSlash ('/' :: joinSlash st.reverse) = [] :: splitSlash (joinSlash st.reverse) := by
      rw [splitSlash]; simp
    rw [hsp, List.foldl_cons, cleanStep_skip true [] [] (Or.inl rfl)]
    by_cases h2 : st = []
    · subst h2; simp [joinSlash, splitSlash, cleanStep]
    · rw [splitSlash_joinSlash _ hslash (by simpa using h2)]
      exact foldl_cleanStep_replay true st h

/-- Cleaning a cleaned path extended by further elements continues from the elements already
written. -/
theorem cleanStack_clean_append (p y : List Char) :
    isRooted (cleanChars p ++ '/' :: y) = isRooted p ∧
    cleanStack (cleanChars p ++ '/' :: y) =
      (splitSlash y).foldl (cleanStep (isRooted p)) (cleanStack p) := by
  have hst := cleanStack_stack p
  have hr : isRooted (cleanChars p ++ '/' :: y) = isRooted p := by
    unfold cleanChars
    rw [isRooted_append _ _ (renderClean_ne_nil _ _ hst), isRooted_renderClean _ _ hst]
  refine ⟨hr, ?_⟩
  unfold cleanStack
  rw [hr, splitSlash_append, List.foldl_append]
  unfold cleanChars
  rw [foldl_splitSlash_render _ _ hst]
  rfl

theorem renderClean_push (r : Bool) (st : List (List Char)) (y : List Char) (h : st ≠ []) :
    renderClean r (y :: st) = renderClean r st ++ '/' :: y := by
  have hne : st.reverse ≠ [] := by simpa using h
  unfold renderClean
  cases r
  · simp only [Bool.false_eq_true, if_false, h, List.reverse_cons]
    rw [joinSlash_snoc _ _ hne]
    simp
  · simp only [if_true, List.reverse_cons]
    rw [joinSlash_snoc _ _ hne]
    simp

/-- Joining a name to a cleaned path that has a last element appends the name. -/
theorem cleanChars_clean_name (p y : List Char) (hp : cleanStack p ≠ [])
    (y1 : y ≠ []) (y2 : '/' ∉ y) (y3 : y ≠ ['.']) (y4 : y ≠ ['.', '.']) :
    cleanChars (cleanChars p ++ '/' :: y) = cleanChars p ++ '/' :: y ∧
    cleanStack (cleanChars p ++ '/' :: y) = y :: cleanStack p := by
  obtain ⟨hr, hs⟩ := cleanStack_clean_append p y
  rw [splitSlash_simple y y2] at hs
  simp only [List.foldl_cons, List.foldl_nil] at hs
  rw [cleanStep_simple _ _ y y1 y3 y4] at hs
  refine ⟨?_, hs⟩
  show renderClean (isRooted (cleanChars p ++ '/' :: y)) (cleanStack (cleanChars p ++ '/' :: y)) = _
  rw [hr, hs, renderClean_push _ _ _ hp]
  rfl

/-- Cleaning a single name gives the name. -/
theorem cleanChars_name (x : List Char)
    (x1 : x ≠ []) (x2 : '/' ∉ x) (x3 : x ≠ ['.']) (x4 : x ≠ ['.', '.']) :
    cleanChars x = x ∧ cleanStack x = [x] := by
  have hr : isRooted x = false := by
    cases x with
    | nil => exact absurd rfl x1
    | cons c cs =>
      have : c ≠ '/' := fun e => x2 (e ▸ List.mem_cons_self _ _)
      simp [isRooted, this]
  have hs : cleanStack x = [x] := by
    unfold cleanStack
    rw [splitSlash_simple x x2]
    simp only [List.foldl_cons, List.foldl_nil]
    exact cleanStep_simple _ _ x x1 x3 x4
  refine ⟨?_, hs⟩
  unfold cleanChars
  rw [hs, hr]
  simp [renderClean, joinSlash]

/-- Cleaning a directory followed by a name: what stands in front of the name depends on
the directory only. -/
theorem cleanChars_dir_name (p x : List Char) (hp : p ≠ [])
    (x1 : x ≠ []) (x2 : '/' ∉ x) (x3 : x ≠ ['.']) (x4 : x ≠ ['.', '.']) :
    cleanChars (p ++ '/' :: x) =
      (if cleanStack p = [] then (if isRooted p then ['/'] else [])
        else cleanChars p ++ ['/']) ++ x ∧
    cleanStack (p ++ '/' :: x) = x :: cleanStack p := by
  have hr : isRooted (p ++ '/' :: x) = isRooted p := isRooted_append _ _ hp
  have hs : cleanStack (p ++ '/' :: x) = x :: cleanStack p := by
    unfold cleanStack
    rw [hr, splitSlash_append, List.foldl_append, splitSlash_simple x x2]
    simp only [List.foldl_cons, List.foldl_nil]
    exact cleanStep_simple _ _ x x1 x3 x4
  refine ⟨?_, hs⟩
  show renderClean (isRooted (p ++ '/' :: x)) (cleanStack (p ++ '/' :: x)) = _
  rw [hr, hs]
  by_cases h0 : cleanStack p = []
  · rw [h0]
    cases isRooted p <;> simp [renderClean, joinSlash]
  · rw [renderClean_push _ _ _ h0]
    simp [h0, cleanChars]

theorem data_ne_nil_of_ne {s : String} (h : s ≠ "") : s.data ≠ [] :=
  fun e => h (String.ext e)

theorem simpleName_ne {x : String} (hx : SimpleName x) : x ≠ "" := by
  intro e
  exact hx.1 (by rw [e])

/-- Joining a name to a directory puts a prefix that depends on the directory only in front
of the name, and gives a cleaned path with a last element. -/
theorem filepathJoin_name (T x : String) (hx : SimpleName x) :
    (filepathJoin T x).data = joinPre T ++ x.data ∧ CleanNamed (filepathJoin T x) := by
  obtain ⟨x1, x2, x3, x4⟩ := hx
  have hxne : x ≠ "" := simpleName_ne ⟨x1, x2, x3, x4⟩
  unfold filepathJoin joinPre
  by_cases hT : T = ""
  · simp only [hT, hxne, if_true, if_false, filepathClean, List.nil_append]
    obtain ⟨c1, c2⟩ := cleanChars_name x.data x1 x2 x3 x4
    exact ⟨c1, x.data, rfl, by rw [c2]; simp⟩
  · simp only [hT, hxne, if_false, filepathClean, String.data_append]
    have hd : T.data ++ "/".data ++ x.data = T.data ++ '/' :: x.data := by simp
    rw [hd]
    obtain ⟨c1, c2⟩ := cleanChars_dir_name T.data x.data (data_ne_nil_of_ne hT) x1 x2 x3 x4
    exact ⟨c1, T.data ++ '/' :: x.data, rfl, by rw [c2]; simp⟩

/-- Joining a name to a cleaned path with a last element appends a separator and the name. -/
theorem filepathJoin_clean_name (P y : String) (hP : CleanNamed P) (hy : SimpleName y) :
    (filepathJoin P y).data = P.data ++ '/' :: y.data ∧ CleanNamed (filepathJoin P y) := by
  obtain ⟨q, hq, hs⟩ := hP
  obtain ⟨y1, y2, y3, y4⟩ := hy
  have hyne : y ≠ "" := simpleName_ne ⟨y1, y2, y3, y4⟩
  have hPne : P ≠ "" := by
    intro e
    have : P.data = [] := by rw [e]
    rw [hq] at this
    exact renderClean_ne_nil _ _ (cleanStack_stack q) this
  unfold filepathJoin
  simp only [hPne, hyne, if_false, filepathClean, String.data_append]
  have hd : P.data ++ "/".data ++ y.data = cleanChars q ++ '/' :: y.data := by rw [hq]; simp
  rw [hd]
  obtain ⟨c1, c2⟩ := cleanChars_clean_name q y.data hs y1 y2 y3 y4
  rw [hq]
  exact ⟨c1, cleanChars q ++ '/' :: y.data, rfl, by rw [c2]; simp⟩

theorem cleanNamed_ne {P : String} (hP : CleanNamed P) : P ≠ "" := by
  obtain ⟨q, hq, _⟩ := hP
  intro e
  have : P.data = [] := by rw [e]
  rw [hq] at this
  exact renderClean_ne_nil _ _ (cleanStack_stack q) this

/-! ## Decimal numbers in names -/

theorem digitChar_ne_slash (n : Nat) (h : n < 10) : Nat.digitChar n ≠ '/' := by
  interval_cases n <;> decide

theorem toDigitsCore_noslash :
    ∀ (fuel n : Nat) (acc : List Char), '/' ∉ acc → '/' ∉ Nat.toDigitsCore 10 fuel n acc
  | 0, _, acc, h => by simpa [Nat.toDigitsCore] using h
  | fuel + 1, n, acc, h => by
    have hd : '/' ∉ Nat.digitChar (n % 10) :: acc := by
      intro m
      rcases List.mem_cons.mp m with m | m
      · exact digitChar_ne_slash (n % 10) (Nat.mod_lt _ (by decide)) m.symm
      · exact h m
    unfold Nat.toDigitsCore
    simp only
    split_ifs
    · exact hd
    · exact toDigitsCore_noslash fuel (n / 10) _ hd

theorem toString_nat_noslash (k : Nat) : '/' ∉ (toString k).data := by
  show '/' ∉ Nat.toDigits 10 k
  exact toDigitsCore_noslash _ _ [] (by simp)

/-- The names the probe forms from a name without separator have no separator. -/
theorem sprintfBackup_data (base : String) (k : Nat) :
    ∃ suffix : List Char, (sprintfBackup base k).data = base.data ++ suffix ∧ '/' ∉ suffix := by
  refine ⟨'_' :: (toString k).data, by simp [sprintfBackup, String.data_append], ?_⟩
  intro m
  rcases List.mem_cons.mp m with m | m
  · exact absurd m (by decide)
  · exact toString_nat_noslash k m

/-! ## The string order -/

theorem ltChars_irrefl (a : List Char) : ltChars a a = false := by
  induction a with
  | nil => rfl
  | cons x xs ih => simp [ltChars, ih]

theorem ltChars_trans : ∀ (a b c : List Char), ltChars a b = true → ltChars b c = true →
    ltChars a c = true
  | _, [], _, h, _ => by simp [ltChars] at h
  | _, _ :: _, [], _, h => by simp [ltChars] at h
  | [], _ :: _, _ :: _, _, _ => by simp [ltChars]
  | x :: xs, y :: ys, z :: zs, h1, h2 => by
    simp only [ltChars] at h1 h2 ⊢
    split_ifs at h1 h2 ⊢ <;> first
      | rfl
      | omega
      | exact ltChars_trans xs ys zs h1 h2

theorem ltChars_connex : ∀ (a b : List Char), ltChars a b = false → ltChars b a = false → a = b
  | [], [], _, _ => rfl
  | [], _ :: _, h, _ => by simp [ltChars] at h
  | _ :: _, [], _, h => by simp [ltChars] at h
  | x :: xs, y :: ys, h1, h2 => by
    simp only [ltChars] at h1 h2
    split_ifs at h1 h2 with h3 h4
    have hn : x.toNat = y.toNat := by omega
    have hxy : x = y := by rw [← Char.ofNat_toNat x, ← Char.ofNat_toNat y, hn]
    rw [hxy, ltChars_connex xs ys h1 h2]

theorem strLess_irrefl (a : String) : strLess a a = false := ltChars_irrefl a.data

theorem strLess_trans {a b c : String} (h1 : strLess a b = true) (h2 : strLess b c = true) :
    strLess a c = true := ltChars_trans _ _ _ h1 h2

theorem strLess_connex {a b : String} (h1 : strLess a b = false) (h2 : strLess b a = false) :
    a = b := String.ext (ltChars_connex _ _ h1 h2)

theorem strLess_asymm {a b : String} (h : strLess a b = true) : strLess b a = false := by
  cases hb : strLess b a with
  | false => rfl
  | true => have := strLess_trans h hb; rw [strLess_irrefl] at this; cases this

theorem strLe_total (a b : String) : strLe a b ∨ strLe b a := by
  unfold strLe
  cases h : strLess b a with
  | false => exact Or.inl rfl
  | true => exact Or.inr (strLess_asymm h)

theorem strLe_trans {a b c : String} (h1 : strLe a b) (h2 : strLe b c) : strLe a c := by
  unfold strLe at *
  cases h : strLess c a with
  | false => rfl
  | true =>
    cases hab : strLess a b with
    | false =>
      have := strLess_connex hab h1
      subst this; rw [h] at h2; cases h2
    | true => have := strLess_trans h hab; rw [h2] at this; cases this

theorem sortStrings_perm (l : List String) : (sortStrings l).Perm l := List.perm_insertionSort _ l

theorem sortStrings_sorted (l : List String) : (sortStrings l).Pairwise strLe := by
  haveI : IsTotal String strLe := ⟨strLe_total⟩
  haveI : IsTrans String strLe := ⟨fun _ _ _ => strLe_trans⟩
  exact List.sorted_insertionSort _ l

theorem mem_sortStrings {l : List String} {x : String} : x ∈ sortStrings l ↔ x ∈ l :=
  (sortStrings_perm l).mem_iff

/-- On a list without repetition the result of `sort.Strings` is strictly ascending. -/
theorem sortStrings_strict {l : List String} (h : l.Nodup) :
    (sortStrings l).Pairwise (fun a b => strLess a b = true) := by
  have hn : (sortStrings l).Nodup := (sortStrings_perm l).nodup_iff.mpr h
  have hs := sortStrings_sorted l
  have := List.Pairwise.and hn hs
  refine this.imp ?_
  intro a b hab
  obtain ⟨hne, hle⟩ := hab
  cases hlt : strLess a b with
  | true => rfl
  | false => exact absurd (strLess_connex hlt hle) hne

/-- The result of `sort.Strings` does not depend on the order of its input. -/
theorem sortStrings_eq_of_perm {l₁ l₂ : List String} (h : l₁.Perm l₂) :
    sortStrings l₁ = sortStrings l₂ := by
  haveI : IsAntisymm String strLe := ⟨fun _ _ h1 h2 => strLess_connex h2 h1⟩
  exact List.eq_of_perm_of_sorted ((sortStrings_perm l₁).trans (h.trans (sortStrings_perm l₂).symm))
    (sortStrings_sorted l₁) (sortStrings_sorted l₂)

/-! ## Sets of names -/

theorem mem_setInsert {m : List String} {s x : String} : x ∈ setInsert m s ↔ x ∈ m ∨ x = s := by
  unfold setInsert
  split_ifs with h
  · constructor
    · exact Or.inl
    · rintro (h1 | h1)
      · exact h1
      · exact h1 ▸ h
  · simp

theorem nodup_setInsert {m : List String} {s : String} (h : m.Nodup) : (setInsert m s).Nodup := by
  unfold setInsert
  split_ifs with hs
  · exact h
  · exact List.Nodup.append h (List.nodup_singleton s) (by simpa using hs)

theorem foldl_setInsert_spec (l : List String) :
    ∀ acc : List String, acc.Nodup →
      (l.foldl setInsert acc).Nodup ∧ ∀ x, x ∈ l.foldl setInsert acc ↔ x ∈ acc ∨ x ∈ l := by
  induction l with
  | nil => intro acc h; simp [h]
  | cons a l ih =>
    intro acc h
    obtain ⟨h1, h2⟩ := ih (setInsert acc a) (nodup_setInsert h)
    refine ⟨h1, fun x => ?_⟩
    rw [List.foldl_cons, h2, mem_setInsert, List.mem_cons, or_assoc]

theorem nodup_makeSet (l : List String) : (makeSet l).Nodup :=
  (foldl_setInsert_spec l [] List.nodup_nil).1

theorem mem_makeSet {l : List String} {x : String} : x ∈ makeSet l ↔ x ∈ l := by
  unfold makeSet
  rw [(foldl_setInsert_spec l [] List.nodup_nil).2]
  simp

theorem mem_notFoundIn {a b : List String} {x : String} : x ∈ notFoundIn a b ↔ x ∈ a ∧ x ∉ b := by
  simp [notFoundIn]

theorem mem_diffAdded {o n : List String} {x : String} : x ∈ diffAdded o n ↔ x ∈ n ∧ x ∉ o := by
  simp [diffAdded, mem_notFoundIn, mem_makeSet]

theorem mem_diffRemoved {o n : List String} {x : String} :
    x ∈ diffRemoved o n ↔ x ∈ o ∧ x ∉ n := by
  simp [diffRemoved, mem_notFoundIn, mem_makeSet]

theorem nodup_diffAdded (o n : List String) : (diffAdded o n).Nodup :=
  (nodup_makeSet n).filter _

theorem nodup_diffRemoved (o n : List String) : (diffRemoved o n).Nodup :=
  (nodup_makeSet o).filter _

/-- Both collected lists are empty exactly when the two slices hold the same names. -/
theorem diff_empty_iff (o n : List String) :
    ((diffAdded o n).length = 0 ∧ (diffRemoved o n).length = 0) ↔ ∀ x, x ∈ o ↔ x ∈ n := by
  simp only [List.length_eq_zero, List.eq_nil_iff_forall_not_mem, mem_diffAdded, mem_diffRemoved]
  constructor
  · rintro ⟨h1, h2⟩ x
    constructor
    · intro hx; by_contra hn; exact h2 x ⟨hx, hn⟩
    · intro hx; by_contra hn; exact h1 x ⟨hx, hn⟩
  · intro h
    exact ⟨fun x hx => hx.2 ((h x).mpr hx.1), fun x hx => hx.2 ((h x).mp hx.1)⟩

/-- When `createDiff` returns a record, it is the record `diffRecordOf` and the two
collected lists are not both empty. -/
theorem createDiff_some {env : Env} {o n : List String} {backupDir tag : String} {w : World}
    {d : DiffRecord} (h : (createDiff env o n backupDir tag w).1 = some d) :
    d = diffRecordOf env o n backupDir tag := by
  unfold createDiff at h
  simp only at h
  split_ifs at h with h0
  split at h
  · cases h
  · split at h
    · cases h
    · simpa using h.symm

/-- C1. Whenever `createDiff` returns a record, its `added` list holds exactly the names of
the new slice missing from the old one, its `removed` list exactly the names of the old
slice missing from the new one, both lists are strictly ascending, and they share no name. -/
theorem createDiff_record_spec (env : Env) (oldRPMs newRPMs : List String)
    (backupDir newTagType : String) (w : World) (d : DiffRecord)
    (h : (createDiff env oldRPMs newRPMs backupDir newTagType w).1 = some d) :
    (∀ x, x ∈ d.added ↔ x ∈ newRPMs ∧ x ∉ oldRPMs) ∧
    (∀ x, x ∈ d.removed ↔ x ∈ oldRPMs ∧ x ∉ newRPMs) ∧
    d.added.Pairwise (fun a b => strLess a b = true) ∧
    d.removed.Pairwise (fun a b => strLess a b = true) ∧
    (∀ x, x ∈ d.added → x ∉ d.removed) := by
  have hd := createDiff_some h
  subst hd
  refine ⟨fun x => ?_, fun x => ?_, ?_, ?_, fun x hx hx2 => ?_⟩
  · simp [diffRecordOf, mem_sortStrings, mem_diffAdded]
  · simp [diffRecordOf, mem_sortStrings, mem_diffRemoved]
  · exact sortStrings_strict (nodup_diffAdded _ _)
  · exact sortStrings_strict (nodup_diffRemoved _ _)
  · simp only [diffRecordOf, mem_sortStrings, mem_diffAdded, mem_diffRemoved] at hx hx2
    exact hx.2 hx2.1

/-- C2. On slices holding the same names `createDiff` returns no record and leaves the world
as it was (no `diff.json` is written, no call is issued); and when the record can be
marshalled and written into the backup directory, it returns no record only if the two
slices hold the same names. -/
theorem createDiff_nil_spec (env : Env) (oldRPMs newRPMs : List String)
    (backupDir newTagType : String) (w : World) :
    ((∀ x, x ∈ oldRPMs ↔ x ∈ newRPMs) →
      createDiff env oldRPMs newRPMs backupDir newTagType w = (none, w)) ∧
    (∀ data, env.marshal (diffRecordOf env oldRPMs newRPMs backupDir newTagType) = some data →
      (osWriteFile w (filepathJoin backupDir "diff.json") data).1 = true →
      (createDiff env oldRPMs newRPMs backupDir newTagType w).1 = none →
      ∀ x, x ∈ oldRPMs ↔ x ∈ newRPMs) := by
  constructor
  · intro h
    have h0 := (diff_empty_iff oldRPMs newRPMs).mpr h
    unfold createDiff
    simp only [h0, and_self, if_true]
  · intro data hm hw hnil
    by_contra hne
    have h0 : ¬ ((diffAdded oldRPMs newRPMs).length = 0 ∧ (diffRemoved oldRPMs newRPMs).length = 0) :=
      fun h => hne ((diff_empty_iff oldRPMs newRPMs).mp h)
    unfold createDiff at hnil
    simp only [h0, if_false, hm] at hnil
    split at hnil
    · rename_i heq
      rw [heq] at hw
      cases hw
    · cases hnil

/-! ## nextAvailableBackup -/

theorem nextAvailableBackupLoop_finds (w : World) (base : String) (N : Nat)
    (hex : ∀ k, k < N → statIsNotExist w (backupCandidate base k) = false)
    (hfree : statIsNotExist w (backupCandidate base N) = true) :
    ∀ (d count fuel : Nat), count + d = N → d < fuel →
      nextAvailableBackupLoop w base fuel count (backupCandidate base count) =
        some (backupCandidate base N) := by
  intro d
  induction d with
  | zero =>
    intro count fuel hc hf
    obtain ⟨f, rfl⟩ : ∃ f, fuel = f + 1 := ⟨fuel - 1, by omega⟩
    have : count = N := by omega
    subst this
    simp [nextAvailableBackupLoop, hfree]
  | succ d ih =>
    intro count fuel hc hf
    obtain ⟨f, rfl⟩ : ∃ f, fuel = f + 1 := ⟨fuel - 1, by omega⟩
    have h1 := hex count (by omega)
    have h2 := ih (count + 1) f (by omega) (by omega)
    simp only [nextAvailableBackupLoop, h1]
    simpa [backupCandidate] using h2

theorem nextAvailableBackupLoop_sound (w : World) (base : String) :
    ∀ (fuel count : Nat) (p : String),
      nextAvailableBackupLoop w base fuel count (backupCandidate base count) = some p →
      statIsNotExist w p = true ∧
      ∃ k, count ≤ k ∧ p = backupCandidate base k ∧
        ∀ j, count ≤ j → j < k → statIsNotExist w (backupCandidate base j) = false := by
  intro fuel
  induction fuel with
  | zero => intro count p h; simp [nextAvailableBackupLoop] at h
  | succ f ih =>
    intro count p h
    simp only [nextAvailableBackupLoop] at h
    by_cases hc : statIsNotExist w (backupCandidate base count) = true
    · simp only [hc, if_true, Option.some.injEq] at h
      subst h
      exact ⟨hc, count, le_refl _, rfl, fun j h1 h2 => absurd h1 (by omega)⟩
    · simp only [hc] at h
      have h' : nextAvailableBackupLoop w base f (count + 1) (backupCandidate base (count + 1)) =
          some p := by simpa [backupCandidate] using h
      obtain ⟨h1, k, hk, hp, hj⟩ := ih (count + 1) p h'
      refine ⟨h1, k, by omega, hp, fun j hj1 hj2 => ?_⟩
      by_cases hjc : j = count
      · subst hjc; simpa using hc
      · exact hj j (by omega) hj2

/-- C3. If `base`, `base_1`, ..., `base_(N-1)` exist and `base_N` does not, the probe returns
`base_N` on any fuel above `N`; if `base` does not exist it returns `base`; and whatever it
returns does not exist while every earlier candidate of the sequence does. -/
theorem nextAvailableBackup_spec (w : World) (base : String) :
    (∀ N, 1 ≤ N → (∀ k, k < N → statIsNotExist w (backupCandidate base k) = false) →
      statIsNotExist w (sprintfBackup base N) = true →
      ∀ fuel, N < fuel → nextAvailableBackup w base fuel = some (sprintfBackup base N)) ∧
    (statIsNotExist w base = true → ∀ fuel, 0 < fuel → nextAvailableBackup w base fuel = some base) ∧
    (∀ fuel p, nextAvailableBackup w base fuel = some p →
      statIsNotExist w p = true ∧
      ∃ k, p = backupCandidate base k ∧
        ∀ j, j < k → statIsNotExist w (backupCandidate base j) = false) := by
  refine ⟨?_, ?_, ?_⟩
  · intro N hN hex hfree fuel hfuel
    have hc : backupCandidate base N = sprintfBackup base N := by
      simp [backupCandidate]; omega
    have := nextAvailableBackupLoop_finds w base N hex (hc ▸ hfree) N 0 fuel (by omega) hfuel
    rw [hc] at this
    simpa [nextAvailableBackup, backupCandidate] using this
  · intro h fuel hfuel
    have := nextAvailableBackupLoop_finds w base 0 (fun k hk => absurd hk (by omega))
      (by simpa [backupCandidate] using h) 0 0 fuel rfl hfuel
    simpa [nextAvailableBackup, backupCandidate] using this
  · intro fuel p h
    have h' : nextAvailableBackupLoop w base fuel 0 (backupCandidate base 0) = some p := by
      simpa [nextAvailableBackup, backupCandidate] using h
    obtain ⟨h1, k, _, hp, hj⟩ := nextAvailableBackupLoop_sound w base fuel 0 p h'
    exact ⟨h1, k, hp, fun j hjk => hj j (Nat.zero_le _) hjk⟩

/-! ## GetRepoPaths -/

theorem getRepoPathsLoop_spec (basePath repoID : String) (repos : List RepoConfig) :
    match repos.find? (fun r => decide (r.ID = repoID)) with
    | some repo =>
      getRepoPathsLoop basePath repoID repos = .ok (repo.Paths.map (fun p => filepathJoin basePath p))
    | none =>
      getRepoPathsLoop basePath repoID repos =
        .error ("repo '" ++ repoID ++ "' not found in config file") := by
  induction repos with
  | nil => simp [getRepoPathsLoop]
  | cons r rs ih =>
    by_cases h : r.ID = repoID
    · simp [getRepoPathsLoop, List.find?, h]
    · simpa [getRepoPathsLoop, List.find?, h] using ih

/-- C4. `GetRepoPaths` fails exactly when no configured repository carries the ID; when it
succeeds the result is the list of the source subdirectories of the first repository with
that ID, in order, each joined to the base path; and the configuration and the world come
back unchanged. -/
theorem GetRepoPaths_spec (c : AppConfig) (repoID : String) (w : World) :
    ((∃ msg, (c.GetRepoPaths repoID w).1 = .error msg) ↔ ∀ repo ∈ c.Repos, repo.ID ≠ repoID) ∧
    (∀ paths, (c.GetRepoPaths repoID w).1 = .ok paths →
      ∃ repo, c.Repos.find? (fun r => decide (r.ID = repoID)) = some repo ∧
        paths = repo.Paths.map (fun p => filepathJoin c.BasePath p)) ∧
    (c.GetRepoPaths repoID w).2 = (c, w) := by
  have hs := getRepoPathsLoop_spec c.BasePath repoID c.Repos
  refine ⟨?_, ?_, rfl⟩
  · cases hf : c.Repos.find? (fun r => decide (r.ID = repoID)) with
    | none =>
      rw [hf] at hs
      simp only [AppConfig.GetRepoPaths, hs]
      have := List.find?_eq_none.mp hf
      constructor
      · intro _ repo hr; simpa using this repo hr
      · intro _; exact ⟨_, rfl⟩
    | some repo =>
      rw [hf] at hs
      simp only [AppConfig.GetRepoPaths, hs]
      constructor
      · rintro ⟨msg, hmsg⟩; cases hmsg
      · intro hall
        have h1 := List.mem_of_find?_eq_some hf
        have h2 := List.find?_some hf
        exact absurd (by simpa using h2) (hall repo h1)
  · intro paths hp
    cases hf : c.Repos.find? (fun r => decide (r.ID = repoID)) with
    | none =>
      rw [hf] at hs
      simp only [AppConfig.GetRepoPaths, hs] at hp
      cases hp
    | some repo =>
      rw [hf] at hs
      simp only [AppConfig.GetRepoPaths, hs] at hp
      exact ⟨repo, rfl, by cases hp; rfl⟩

/-! ## AuthMiddleware -/

theorem toLower_of_ge (c : Char) (h : 128 ≤ c.toNat) : c.toLower = c := by
  unfold Char.toLower
  simp only
  split_ifs with h1
  · omega
  · rfl

/-- A rune mapping that lowers ASCII as usual and sends no other rune to a letter of
`bearer` agrees with ASCII lowering on the question whether the result is `bearer`. -/
theorem map_lower_eq_iff (lower : Char → Char)
    (hA : ∀ c : Char, c.toNat < 128 → lower c = c.toLower)
    (hN : ∀ c : Char, 128 ≤ c.toNat → lower c ∉ ['b', 'e', 'a', 'r']) :
    ∀ (l t : List Char), (∀ x ∈ t, x ∈ ['b', 'e', 'a', 'r']) →
      (l.map lower = t ↔ l.map Char.toLower = t) := by
  intro l
  induction l with
  | nil => intro t _; simp
  | cons c cs ih =>
    intro t ht
    cases t with
    | nil => simp
    | cons x xs =>
      have hx : x ∈ ['b', 'e', 'a', 'r'] := ht x (List.mem_cons_self _ _)
      have ih' := ih xs (fun y hy => ht y (List.mem_cons_of_mem _ hy))
      simp only [List.map_cons, List.cons.injEq, ih']
      have hc : lower c = x ↔ c.toLower = x := by
        by_cases h : c.toNat < 128
        · rw [hA c h]
        · have h' : 128 ≤ c.toNat := by omega
          rw [toLower_of_ge c h']
          constructor
          · intro e; exact absurd (e ▸ hx) (hN c h')
          · intro e
            subst e
            exfalso
            simp only [List.mem_cons, List.mem_singleton, List.not_mem_nil, or_false] at hx
            rcases hx with hx | hx | hx | hx <;> (rw [hx] at h'; revert h'; decide)
      rw [hc]

theorem stringsToLower_bearer_iff (lower : Char → Char)
    (hA : ∀ c : Char, c.toNat < 128 → lower c = c.toLower)
    (hN : ∀ c : Char, 128 ≤ c.toNat → lower c ∉ ['b', 'e', 'a', 'r']) (p : String) :
    stringsToLower lower p = "bearer" ↔ equalIgnoreCase p "bearer" := by
  have h := map_lower_eq_iff lower hA hN p.data "bearer".data (by decide)
  unfold stringsToLower equalIgnoreCase
  rw [String.ext_iff]
  simp only [h]
  rfl

/-- C5. `AuthMiddleware` calls the wrapped handler exactly when the Authorization header
splits on spaces into two parts, the first equal to `bearer` up to case and the second equal
to the required token; otherwise (a missing header included) it answers 401. -/
theorem AuthMiddleware_spec (getenv : String → String) (lower : Char → Char)
    (hA : ∀ c : Char, c.toNat < 128 → lower c = c.toLower)
    (hN : ∀ c : Char, 128 ≤ c.toNat → lower c ∉ ['b', 'e', 'a', 'r']) (r : Request) :
    (AuthMiddleware getenv lower r = .serveNext ↔
      ∃ p0 p1, stringsSplitSpace (valuesGet r.header "Authorization") = [p0, p1] ∧
        equalIgnoreCase p0 "bearer" ∧ p1 = requiredTokenOf getenv) ∧
    (AuthMiddleware getenv lower r ≠ .serveNext →
      ∃ msg, AuthMiddleware getenv lower r = .httpError msg 401) := by
  have hb := stringsToLower_bearer_iff lower hA hN
  constructor
  · unfold AuthMiddleware requiredTokenOf
    simp only
    by_cases h0 : valuesGet r.header "Authorization" = ""
    · simp only [h0, if_true]
      constructor
      · intro h; cases h
      · rintro ⟨p0, p1, hs, _⟩
        have : stringsSplitSpace "" = [""] := by decide
        rw [this] at hs
        cases hs
    · simp only [h0, if_false]
      generalize stringsSplitSpace (valuesGet r.header "Authorization") = parts
      match parts with
      | [] => simp
      | [a] => simp
      | [a, b] =>
        simp only [List.length_cons, List.length_nil, List.getD_cons_zero, List.getD_cons_succ]
        by_cases h1 : stringsToLower lower a = "bearer"
        · have h1' := (hb a).mp h1
          by_cases h2 : b = (if getenv "RPM_API_TOKEN" = "" then "changeme"
              else getenv "RPM_API_TOKEN")
          · simp only [h1, h2]
            simp
            exact h1'
          · simp only [h1]
            simp [h2]
        · have h1' : ¬ equalIgnoreCase a "bearer" := fun h => h1 ((hb a).mpr h)
          simp [h1, h1']
      | a :: b :: c :: rest => simp
  · intro hne
    unfold AuthMiddleware at hne ⊢
    simp only at hne ⊢
    split_ifs at hne ⊢ <;> first
      | exact ⟨_, rfl⟩
      | exact absurd rfl hne

/-! ## createTagHandler: rejected requests -/

/-- C6. A create-tag request with an empty folder, an unknown tag type, or a folder that no
configured repository carries is answered with status 400 and the world (path table and
the log of mutating calls) is the one before the call. -/
theorem createTagHandler_bad_request (env : Env) (config : AppConfig) (r : Request) (w : World)
    (h : valuesGet r.query "folder" = "" ∨
      (valuesGet r.query "type" ≠ "monthly" ∧ valuesGet r.query "type" ≠ "half-monthly") ∨
      (∀ repo ∈ config.Repos, repo.ID ≠ valuesGet r.query "folder")) :
    ∃ msg, createTagHandler env config r w = some (jsonResponse 400 (.error msg), w) := by
  unfold createTagHandler
  simp only
  by_cases h1 : valuesGet r.query "folder" = "" ∨
      (valuesGet r.query "type" ≠ "monthly" ∧ valuesGet r.query "type" ≠ "half-monthly")
  · rw [if_pos h1]
    exact ⟨_, rfl⟩
  · rw [if_neg h1]
    have h2 : ∀ repo ∈ config.Repos, repo.ID ≠ valuesGet r.query "folder" := by
      rcases h with h | h | h
      · exact absurd (Or.inl h) h1
      · exact absurd (Or.inr h) h1
      · exact h
    have hs := getRepoPathsLoop_spec config.BasePath (valuesGet r.query "folder") config.Repos
    have hf : config.Repos.find? (fun x => decide (x.ID = valuesGet r.query "folder")) = none :=
      List.find?_eq_none.mpr (fun repo hr => by simpa using h2 repo hr)
    rw [hf] at hs
    simp only [AppConfig.GetRepoPaths, hs]
    exact ⟨_, rfl⟩

/-! ## The listing order -/

theorem entryLess_total (a b : DirEntry) : entryLess b a = false ∨ entryLess a b = false := by
  unfold entryLess
  cases ha : a.IsDir <;> cases hb : b.IsDir <;> simp
  · exact strLe_total a.Name b.Name
  · exact strLe_total a.Name b.Name

theorem entryLess_trans (a b c : DirEntry) (h1 : entryLess b a = false)
    (h2 : entryLess c b = false) : entryLess c a = false := by
  unfold entryLess at *
  cases ha : a.IsDir <;> cases hb : b.IsDir <;> cases hc : c.IsDir <;>
    simp [ha, hb, hc] at h1 h2 ⊢
  · exact strLe_trans (a := a.Name) (b := b.Name) (c := c.Name) h1 h2
  · exact strLe_trans (a := a.Name) (b := b.Name) (c := c.Name) h1 h2

theorem sortListing_sorted (entries : List DirEntry) :
    (sortListing entries).Pairwise (fun a b => entryLess b a = false) := by
  haveI : IsTotal DirEntry (fun a b => entryLess b a = false) := ⟨entryLess_total⟩
  haveI : IsTrans DirEntry (fun a b => entryLess b a = false) := ⟨entryLess_trans⟩
  exact List.sorted_insertionSort _ entries

/-- C8. The sorted listing is a rearrangement of the entries in which no file entry stands
before a directory entry, and the names of the directories, and the names of the files,
are each in ascending order. -/
theorem sortListing_spec (entries : List DirEntry) :
    (sortListing entries).Perm entries ∧
    (sortListing entries).Pairwise (fun a b => b.IsDir = true → a.IsDir = true) ∧
    (((sortListing entries).filter (fun e => e.IsDir)).map (fun e => e.Name)).Pairwise strLe ∧
    (((sortListing entries).filter (fun e => !e.IsDir)).map (fun e => e.Name)).Pairwise strLe := by
  have hs := sortListing_sorted entries
  refine ⟨List.perm_insertionSort _ entries, ?_, ?_, ?_⟩
  · refine hs.imp ?_
    intro a b h hb
    unfold entryLess at h
    cases ha : a.IsDir
    · simp [ha, hb] at h
    · rfl
  · rw [List.pairwise_map]
    refine (hs.filter _).imp_of_mem ?_
    intro a b ha hb h
    have ha' : a.IsDir = true := by simpa using (List.mem_filter.mp ha).2
    have hb' : b.IsDir = true := by simpa using (List.mem_filter.mp hb).2
    simpa [entryLess, ha', hb'] using h
  · rw [List.pairwise_map]
    refine (hs.filter _).imp_of_mem ?_
    intro a b ha hb h
    have ha' : a.IsDir = false := by simpa using (List.mem_filter.mp ha).2
    have hb' : b.IsDir = false := by simpa using (List.mem_filter.mp hb).2
    simpa [entryLess, ha', hb'] using h

/-! ## Tag directories -/

theorem mapGet_mapAssign_self (m : List (String × String)) (k v : String) :
    mapGet (mapAssign m k v) k = some v := by
  simp [mapGet, mapAssign, List.find?]

theorem find?_filter_of_imp {α : Type} (p q : α → Bool) (hpq : ∀ x, p x = true → q x = true) :
    ∀ l : List α, (l.filter q).find? p = l.find? p
  | [] => rfl
  | x :: xs => by
    have ih := find?_filter_of_imp p q hpq xs
    by_cases hq : q x = true
    · rw [List.filter_cons_of_pos hq]
      by_cases hp : p x = true
      · rw [List.find?_cons_of_pos _ hp, List.find?_cons_of_pos _ hp]
      · rw [List.find?_cons_of_neg _ hp, List.find?_cons_of_neg _ hp, ih]
    · have hp : ¬ p x = true := fun hp => hq (hpq x hp)
      rw [List.filter_cons_of_neg hq, List.find?_cons_of_neg _ hp, ih]

theorem mapGet_mapAssign_ne (m : List (String × String)) (k v k' : String) (h : k ≠ k') :
    mapGet (mapAssign m k v) k' = mapGet m k' := by
  unfold mapGet mapAssign
  rw [List.find?_cons_of_neg _ (by simpa using h)]
  rw [find?_filter_of_imp]
  intro x hx
  have hx' : x.1 = k' := by simpa using hx
  simpa [hx'] using Ne.symm h

/-- Repositories with other IDs leave the map entry of `repoID` alone. -/
theorem repoPathMap_fold_other (tagsBase repoID : String) (repos : List RepoConfig)
    (h : ∀ r ∈ repos, r.ID ≠ repoID) :
    ∀ m : List (String × String),
      mapGet (repos.foldl (fun m repo =>
        if repo.TagDir ≠ "" then mapAssign m repo.ID repo.TagDir
        else mapAssign m repo.ID tagsBase) m) repoID = mapGet m repoID := by
  induction repos with
  | nil => intro m; rfl
  | cons r rs ih =>
    intro m
    have hr : r.ID ≠ repoID := h r (List.mem_cons_self _ _)
    rw [List.foldl_cons, ih (fun x hx => h x (List.mem_cons_of_mem _ hx))]
    split_ifs <;> exact mapGet_mapAssign_ne _ _ _ _ hr

theorem getTagsPathLoop_other (tagsBase repoID : String) (repos : List RepoConfig)
    (h : ∀ r ∈ repos, r.ID ≠ repoID) : getTagsPathLoop tagsBase repoID repos = tagsBase := by
  induction repos with
  | nil => rfl
  | cons r rs ih =>
    have hr : r.ID ≠ repoID := h r (List.mem_cons_self _ _)
    simp [getTagsPathLoop, hr, ih (fun x hx => h x (List.mem_cons_of_mem _ hx))]

/-- With exactly one entry of the given ID, the lookup loop, the browser's map and the
first-match selection all land on that entry. -/
theorem tagsPath_unique (tagsBase repoID : String) (repos : List RepoConfig)
    (h : (repos.filter (fun r => decide (r.ID = repoID))).length = 1) :
    ∃ repo, repos.find? (fun r => decide (r.ID = repoID)) = some repo ∧
      getTagsPathLoop tagsBase repoID repos =
        (if repo.TagDir ≠ "" then repo.TagDir else tagsBase) ∧
      ∀ m : List (String × String),
        mapGet (repos.foldl (fun m repo =>
          if repo.TagDir ≠ "" then mapAssign m repo.ID repo.TagDir
          else mapAssign m repo.ID tagsBase) m) repoID =
        some (if repo.TagDir ≠ "" then repo.TagDir else tagsBase) := by
  induction repos with
  | nil => simp at h
  | cons r rs ih =>
    by_cases hr : r.ID = repoID
    · have hrest : ∀ x ∈ rs, x.ID ≠ repoID := by
        have h' : (rs.filter (fun r => decide (r.ID = repoID))).length = 0 := by
          simpa [List.filter, hr] using h
        have h'' := List.length_eq_zero.mp h'
        intro x hx hxi
        have : x ∈ rs.filter (fun r => decide (r.ID = repoID)) :=
          List.mem_filter.mpr ⟨hx, by simpa using hxi⟩
        rw [h''] at this
        cases this
      refine ⟨r, by simp [List.find?, hr], ?_, ?_⟩
      · by_cases ht : r.TagDir = ""
        · simp [getTagsPathLoop, ht, getTagsPathLoop_other tagsBase repoID rs hrest]
        · simp [getTagsPathLoop, hr, ht]
      · intro m
        rw [List.foldl_cons, repoPathMap_fold_other tagsBase repoID rs hrest]
        split_ifs
        · rw [← hr]; exact mapGet_mapAssign_self _ _ _
        · rw [← hr]; exact mapGet_mapAssign_self _ _ _
    · have h' : (rs.filter (fun r => decide (r.ID = repoID))).length = 1 := by
        simpa [List.filter, hr] using h
      obtain ⟨repo, h1, h2, h3⟩ := ih h'
      refine ⟨repo, by simpa [List.find?, hr] using h1, by simpa [getTagsPathLoop, hr] using h2, ?_⟩
      intro m
      rw [List.foldl_cons]
      exact h3 _

/-- C9 (counterexample). With an ID carried by several entries the three lookups part ways:
the browser's map takes the last entry, `GetTagsPathForRepo` the first entry with an
override, and `GetRepoPaths` the first entry. -/
theorem tagsPath_dup_counterexample :
    ¬ (mapGet (repoPathMap dupConfig) "a" = some (dupConfig.GetTagsPathForRepo "a") ∧
       ∃ repo, dupConfig.Repos.find? (fun r => decide (r.ID = "a")) = some repo ∧
         dupConfig.GetTagsPathForRepo "a" = tagDirOf dupConfig repo) := by
  decide

/-- C9 (amended). For an ID carried by exactly one configured repository entry, the directory
in the browser's `repoPathMap` equals the one `GetTagsPathForRepo` returns, and both are
the `tag_dir` override of the entry `GetRepoPaths` selects when that is non-empty and the
shared tags base otherwise. -/
theorem tagsPath_consistent (c : AppConfig) (repoID : String) (w : World)
    (h : (c.Repos.filter (fun r => decide (r.ID = repoID))).length = 1) :
    ∃ repo, c.Repos.find? (fun r => decide (r.ID = repoID)) = some repo ∧
      (c.GetRepoPaths repoID w).1 = .ok (repo.Paths.map (fun p => filepathJoin c.BasePath p)) ∧
      mapGet (repoPathMap c) repoID = some (c.GetTagsPathForRepo repoID) ∧
      c.GetTagsPathForRepo repoID = tagDirOf c repo := by
  obtain ⟨repo, h1, h2, h3⟩ := tagsPath_unique c.TagsBase repoID c.Repos h
  have hs := getRepoPathsLoop_spec c.BasePath repoID c.Repos
  rw [h1] at hs
  refine ⟨repo, h1, hs, ?_, h2⟩
  unfold repoPathMap AppConfig.GetTagsPathForRepo
  rw [h3 [], h2]


/-! ## Probing below a regular file -/

theorem dirOf_append_name (d n : List Char) (hn : '/' ∉ n) :
    dirOf ⟨d ++ '/' :: n⟩ = ⟨d⟩ := by
  unfold dirOf
  apply String.ext
  have h1 : (d ++ '/' :: n).reverse = n.reverse ++ '/' :: d.reverse := by simp
  have h2 : ∀ (l : List Char), (∀ c ∈ l, c ≠ '/') → ∀ r : List Char,
      (l ++ '/' :: r).dropWhile (fun c => c ≠ '/') = '/' :: r := by
    intro l
    induction l with
    | nil => intro _ r; simp [List.dropWhile]
    | cons c cs ih =>
      intro hl r
      have hc : c ≠ '/' := hl c (List.mem_cons_self _ _)
      simp only [List.cons_append, List.dropWhile, hc, ne_eq, not_false_eq_true, decide_True]
      exact ih (fun x hx => hl x (List.mem_cons_of_mem _ hx)) r
  show ((((d ++ '/' :: n).reverse).dropWhile (fun c => c ≠ '/')).drop 1).reverse = d
  rw [h1, h2 n.reverse (fun c hc e => hn (by rw [← e]; simpa using hc))]
  simp

theorem resolvePath_succ (fs : FS) (fuel hops : Nat) (p : String) :
    resolvePath fs (fuel + 1) hops p =
      if p = "" then .error .notExist
      else if p = "/" ∨ p = "." then .ok (p, Node.dir)
      else
        match (if dirOf p = "" then
            (.ok (if p.data.head? = some '/' then "/" else ".") : Except OSError String)
          else
            match resolvePath fs fuel hops (dirOf p) with
            | .error e => .error e
            | .ok (d, Node.dir) => .ok d
            | .ok _ => .error .other) with
        | .error e => .error e
        | .ok d =>
          if baseOf p = "" ∨ baseOf p = "." then .ok (d, Node.dir)
          else if baseOf p = ".." then .ok (parentOfDir d, Node.dir)
          else
            match fsLookup fs (childPath d (baseOf p)) with
            | none => .error .notExist
            | some (Node.symlink t) =>
              if hops = 0 then .error .other
              else if t = "" then .error .notExist
              else
                resolvePath fs fuel (hops - 1)
                  (if t.data.head? = some '/' then filepathClean t else filepathJoin d t)
            | some n => .ok (childPath d (baseOf p), n) := by
  rw [resolvePath]

/-- Every path directly below `/t` gets an error other than not-exist when `/t` is a file. -/
theorem osStat_below_file (n : List Char) (hn : '/' ∉ n) :
    osStat fileParentWorld ⟨"/t".data ++ '/' :: n⟩ = .error .other := by
  have hd : dirOf ⟨"/t".data ++ '/' :: n⟩ = "/t" := dirOf_append_name "/t".data n hn
  have hin : resolvePath fileParentWorld.fs 99999 maxSymlinks "/t" = .ok ("/t", Node.file "x") := by
    decide
  have h1 : (⟨"/t".data ++ '/' :: n⟩ : String) ≠ "" := by
    intro e; have := congrArg String.data e; simp at this
  have h2 : ¬ ((⟨"/t".data ++ '/' :: n⟩ : String) = "/" ∨ (⟨"/t".data ++ '/' :: n⟩ : String) = ".") := by
    rintro (e | e)
    · have hlen := congrArg String.length e
      simp [String.length] at hlen
    · have hlen := congrArg String.length e
      simp [String.length] at hlen
  have h3 : ("/t" : String) ≠ "" := by decide
  unfold osStat
  have hf : statFuel = 99999 + 1 := rfl
  rw [hf, resolvePath_succ, if_neg h1, if_neg h2, hd, if_neg h3, hin]

theorem nextAvailableBackupLoop_never (w : World) (base : String)
    (h : ∀ k, statIsNotExist w (sprintfBackup base k) = false) :
    ∀ (fuel count : Nat) (candidate : String), statIsNotExist w candidate = false →
      nextAvailableBackupLoop w base fuel count candidate = none
  | 0, _, _, _ => rfl
  | fuel + 1, count, candidate, hc => by
    rw [nextAvailableBackupLoop]
    simp only [hc, Bool.false_eq_true, if_false]
    exact nextAvailableBackupLoop_never w base h fuel (count + 1) _ (h (count + 1))

/-- C3 (counterexample). With a regular file where the tag directory should be, the backup
path does not exist (`os.Stat` fails on it), yet the probe never returns: `os.Stat` reports
an error that is not a not-exist error for every candidate, on any fuel. -/
theorem nextAvailableBackup_below_file :
    (∃ e, osStat fileParentWorld "/t/monthly_2024-01-02" = .error e) ∧
    ∀ fuel, nextAvailableBackup fileParentWorld "/t/monthly_2024-01-02" fuel = none := by
  have hbase : osStat fileParentWorld "/t/monthly_2024-01-02" = .error .other :=
    osStat_below_file "monthly_2024-01-02".data (by decide)
  refine ⟨⟨_, hbase⟩, fun fuel => ?_⟩
  have hk : ∀ k, statIsNotExist fileParentWorld (sprintfBackup "/t/monthly_2024-01-02" k) = false := by
    intro k
    obtain ⟨suffix, hs, hno⟩ := sprintfBackup_data "/t/monthly_2024-01-02" k
    have he : sprintfBackup "/t/monthly_2024-01-02" k =
        ⟨"/t".data ++ '/' :: ("monthly_2024-01-02".data ++ suffix)⟩ := by
      apply String.ext
      rw [hs]
      rfl
    have hn : '/' ∉ "monthly_2024-01-02".data ++ suffix := by
      intro m
      rcases List.mem_append.mp m with m | m
      · exact absurd m (by decide)
      · exact hno m
    unfold statIsNotExist
    rw [he, osStat_below_file _ hn]
  unfold nextAvailableBackup
  exact nextAvailableBackupLoop_never _ _ hk fuel 0 _ (by unfold statIsNotExist; rw [hbase])

/-! ## The path table -/

theorem fsLookup_fsErase_ne (fs : FS) (p k : String) (h : k ≠ p) :
    fsLookup (fsErase fs p) k = fsLookup fs k := by
  unfold fsLookup fsErase
  rw [find?_filter_of_imp]
  intro x hx
  have hx' : x.1 = k := by simpa using hx
  simpa [hx'] using h

theorem fsLookup_fsSet_ne (fs : FS) (p k : String) (n : Node) (h : k ≠ p) :
    fsLookup (fsSet fs p n) k = fsLookup fs k := by
  unfold fsSet
  have : fsLookup ((p, n) :: fsErase fs p) k = fsLookup (fsErase fs p) k := by
    unfold fsLookup
    rw [List.find?_cons_of_neg _ (by simpa using Ne.symm h)]
  rw [this, fsLookup_fsErase_ne fs p k h]

theorem fsLookup_some_mem {fs : FS} {p : String} {n : Node} (h : fsLookup fs p = some n) :
    ∃ e ∈ fs, e.1 = p := by
  unfold fsLookup at h
  cases hf : fs.find? (fun e => decide (e.1 = p)) with
  | none => rw [hf] at h; cases h
  | some e =>
    exact ⟨e, List.mem_of_find?_eq_some hf, by simpa using List.find?_some hf⟩

theorem mkdirSteps_lookup (k : String) :
    ∀ (qs : List String) (fs : FS), (∀ q ∈ qs, q ≠ k) →
      fsLookup (mkdirSteps fs qs).2 k = fsLookup fs k
  | [], _, _ => rfl
  | q :: qs, fs, h => by
    have hq : k ≠ q := Ne.symm (h q (List.mem_cons_self _ _))
    have hqs : ∀ x ∈ qs, x ≠ k := fun x hx => h x (List.mem_cons_of_mem _ hx)
    unfold mkdirSteps
    split
    · exact mkdirSteps_lookup k qs fs hqs
    · rfl
    · rw [mkdirSteps_lookup k qs _ hqs, fsLookup_fsSet_ne _ _ _ _ hq]

theorem pathPrefixes_length :
    ∀ (cs acc : List Char) (q : String), q ∈ pathPrefixes acc cs →
      q.data.length ≤ acc.length + cs.length
  | [], acc, q, h => by
    simp only [pathPrefixes, List.mem_singleton] at h
    subst h
    simp
  | c :: cs, acc, q, h => by
    unfold pathPrefixes at h
    split_ifs at h
    · rcases List.mem_cons.mp h with h | h
      · subst h; simp
      · have := pathPrefixes_length cs (acc ++ [c]) q h
        simp only [List.length_append, List.length_cons, List.length_nil] at this ⊢
        omega
    · have := pathPrefixes_length cs (acc ++ [c]) q h
      simp only [List.length_append, List.length_cons, List.length_nil] at this ⊢
      omega

/-- What one step of the workflow does to the world: calls are appended to the log, and paths
foreign to the live directory `L` keep what they name. -/
theorem osMkdirAll_step (w : World) (L : String) :
    (osMkdirAll w L).2.calls = w.calls ++ [SysCall.mkdirAll L (osMkdirAll w L).1] ∧
    ∀ k, Foreign L k → fsLookup (osMkdirAll w L).2.fs k = fsLookup w.fs k := by
  refine ⟨rfl, fun k h => ?_⟩
  unfold osMkdirAll
  simp only
  apply mkdirSteps_lookup
  intro q hq hqk
  have := pathPrefixes_length L.data [] q hq
  subst hqk
  have := h.1
  simp at *
  omega

theorem isUnder_append_name (L : String) (n : List Char) (k : String)
    (hk : k.data = L.data ++ '/' :: n) : isUnder L k = true := by
  unfold isUnder
  rw [hk, List.isPrefixOf_iff_prefix]
  exact ⟨n, by simp⟩

/-- The path of a name in the live directory is not foreign to it. -/
theorem join_ne_foreign (L name k : String) (hL : CleanNamed L) (hn : SimpleName name)
    (h : Foreign L k) : filepathJoin L name ≠ k := by
  intro e
  have := isUnder_append_name L name.data (filepathJoin L name)
    (filepathJoin_clean_name L name hL hn).1
  rw [e, h.2] at this
  cases this

theorem osRemove_step (w : World) (p L : String) (hp : ∀ k, Foreign L k → p ≠ k) :
    (osRemove w p).2.calls = w.calls ++ [SysCall.remove p (osRemove w p).1] ∧
    ∀ k, Foreign L k → fsLookup (osRemove w p).2.fs k = fsLookup w.fs k := by
  refine ⟨rfl, fun k h => ?_⟩
  unfold osRemove
  simp only
  split_ifs
  · exact fsLookup_fsErase_ne _ _ _ (Ne.symm (hp k h))
  · rfl

theorem osSymlink_step (w : World) (src p L : String) (hp : ∀ k, Foreign L k → p ≠ k) :
    (osSymlink w src p).2.calls = w.calls ++ [SysCall.symlink src p (osSymlink w src p).1] ∧
    ∀ k, Foreign L k → fsLookup (osSymlink w src p).2.fs k = fsLookup w.fs k := by
  refine ⟨rfl, fun k h => ?_⟩
  unfold osSymlink
  simp only
  split_ifs
  · exact fsLookup_fsSet_ne _ _ _ _ (Ne.symm (hp k h))
  · rfl

theorem linksMade_append (a b : List SysCall) : linksMade (a ++ b) = linksMade a ++ linksMade b := by
  simp [linksMade]

theorem writtenCount_append (a b : List SysCall) :
    writtenCount (a ++ b) = writtenCount a + writtenCount b := by
  simp [writtenCount, List.countP_append]

/-! ## The linking loops -/

theorem childName_some {d k n : String} (h : childName d k = some n) :
    n.data ≠ [] ∧ '/' ∉ n.data := by
  unfold childName at h
  split_ifs at h with h1 h2
  have : n = ⟨List.drop (childPrefix d).length k.data⟩ := by simpa using h.symm
  subst this
  exact h2

theorem dirEntries_rpm_names (w : World) (d : String) :
    ∀ n ∈ ((dirEntries w d).filter isRpmEntry).map (fun e => e.name),
      SimpleName n ∧ stringsHasSuffix n ".rpm" = true := by
  intro n hm
  obtain ⟨e, he, rfl⟩ := List.mem_map.mp hm
  obtain ⟨he1, he2⟩ := List.mem_filter.mp he
  unfold dirEntries at he1
  obtain ⟨m, hm1, rfl⟩ := List.mem_map.mp he1
  have hm2 : m ∈ w.fs.filterMap (fun e => childName d e.1) :=
    mem_makeSet.mp (mem_sortStrings.mp hm1)
  obtain ⟨x, _, hx⟩ := List.mem_filterMap.mp hm2
  obtain ⟨n1, n2⟩ := childName_some hx
  have hsuf : stringsHasSuffix m ".rpm" = true := he2
  refine ⟨⟨n1, n2, ?_, ?_⟩, hsuf⟩
  · intro e1
    unfold stringsHasSuffix at hsuf
    rw [e1] at hsuf
    revert hsuf
    decide
  · intro e1
    unfold stringsHasSuffix at hsuf
    rw [e1] at hsuf
    revert hsuf
    decide

/-- The package names `listDirContents` hands to the linking loop are plain file names ending
in `.rpm`. -/
theorem listDirContents_rpm_names (w : World) (sp : String) :
    ∀ n ∈ (listDirContents w sp isRpmEntry).1,
      SimpleName n ∧ stringsHasSuffix n ".rpm" = true := by
  intro n hn
  unfold listDirContents at hn
  split at hn
  · simp at hn
  · simp at hn
  · rename_i entries heq
    unfold osReadDir at heq
    split at heq
    · cases heq
    · rename_i d _
      injection heq with heq
      subst heq
      exact dirEntries_rpm_names w d n hn
    · cases heq

theorem linkRpms_spec (env : Env) (L sp : String) (hL : CleanNamed L) :
    ∀ (rpms newRpms : List String) (w : World), (∀ n ∈ rpms, SimpleName n) →
      ∃ (names : List String) (new : List SysCall),
        (linkRpms env L sp rpms newRpms w).1 = newRpms ++ names ∧
        (linkRpms env L sp rpms newRpms w).2.calls = w.calls ++ new ∧
        linksMade new = names.map (fun n => linkCall env L (sp, n)) ∧
        writtenCount new = 0 ∧
        (∀ n ∈ names, n ∈ rpms) ∧
        ∀ k, Foreign L k → fsLookup (linkRpms env L sp rpms newRpms w).2.fs k = fsLookup w.fs k
  | [], newRpms, w, _ => ⟨[], [], by simp [linkRpms], by simp [linkRpms], rfl, rfl, by simp,
      fun _ _ => rfl⟩
  | rpmName :: rest, newRpms, w, hs => by
    have hname : SimpleName rpmName := hs rpmName (List.mem_cons_self _ _)
    have hrest : ∀ n ∈ rest, SimpleName n := fun n hn => hs n (List.mem_cons_of_mem _ hn)
    have hdst : ∀ k, Foreign L k → filepathJoin L rpmName ≠ k :=
      fun k hk => join_ne_foreign L rpmName k hL hname hk
    obtain ⟨r1, r2⟩ := osRemove_step w (filepathJoin L rpmName) L hdst
    obtain ⟨s1, s2⟩ := osSymlink_step (osRemove w (filepathJoin L rpmName)).2
      (filepathAbs env.cwd (filepathJoin sp rpmName)) (filepathJoin L rpmName) L hdst
    rw [linkRpms]
    rcases hst : osSymlink (osRemove w (filepathJoin L rpmName)).2
      (filepathAbs env.cwd (filepathJoin sp rpmName)) (filepathJoin L rpmName) with ⟨ok, w2⟩
    rw [hst] at s1 s2
    simp only at s1 s2
    rw [r1] at s1
    cases ok
    · obtain ⟨names, new, i1, i2, i3, i4, i5, i6⟩ := linkRpms_spec env L sp hL rest newRpms w2 hrest
      refine ⟨names, SysCall.remove (filepathJoin L rpmName) (osRemove w (filepathJoin L rpmName)).1
        :: SysCall.symlink (filepathAbs env.cwd (filepathJoin sp rpmName)) (filepathJoin L rpmName)
          false :: new, i1, ?_, ?_, ?_, fun n hn => List.mem_cons_of_mem _ (i5 n hn),
        fun k hk => ?_⟩
      · show (linkRpms env L sp rest newRpms w2).2.calls = _
        rw [i2, s1]; simp
      · simpa [linksMade, isLinkMade, List.filter] using i3
      · simpa [writtenCount, List.countP_cons] using i4
      · show fsLookup (linkRpms env L sp rest newRpms w2).2.fs k = _
        rw [i6 k hk, s2 k hk, r2 k hk]
    · obtain ⟨names, new, i1, i2, i3, i4, i5, i6⟩ :=
        linkRpms_spec env L sp hL rest (newRpms ++ [rpmName]) w2 hrest
      refine ⟨rpmName :: names,
        SysCall.remove (filepathJoin L rpmName) (osRemove w (filepathJoin L rpmName)).1
        :: SysCall.symlink (filepathAbs env.cwd (filepathJoin sp rpmName)) (filepathJoin L rpmName)
          true :: new, ?_, ?_, ?_, ?_, ?_, fun k hk => ?_⟩
      · show (linkRpms env L sp rest (newRpms ++ [rpmName]) w2).1 = _
        rw [i1]; simp
      · show (linkRpms env L sp rest (newRpms ++ [rpmName]) w2).2.calls = _
        rw [i2, s1]; simp
      · simp only [linksMade, List.filter, isLinkMade, List.map_cons, linkCall]
        exact congrArg _ i3
      · simpa [writtenCount, List.countP_cons] using i4
      · intro n hn
        rcases List.mem_cons.mp hn with hn | hn
        · rw [hn]; exact List.mem_cons_self _ _
        · exact List.mem_cons_of_mem _ (i5 n hn)
      · show fsLookup (linkRpms env L sp rest (newRpms ++ [rpmName]) w2).2.fs k = _
        rw [i6 k hk, s2 k hk, r2 k hk]

theorem linkSources_spec (env : Env) (L : String) (hL : CleanNamed L) :
    ∀ (sourcePaths newRpms : List String) (w : World),
      ∃ (pkgs : List (String × String)) (new : List SysCall),
        (linkSources env L sourcePaths newRpms w).1 = newRpms ++ pkgs.map (fun pr => pr.2) ∧
        (linkSources env L sourcePaths newRpms w).2.calls = w.calls ++ new ∧
        linksMade new = pkgs.map (linkCall env L) ∧
        writtenCount new = 0 ∧
        (∀ pr ∈ pkgs, pr.1 ∈ sourcePaths ∧ SimpleName pr.2 ∧ stringsHasSuffix pr.2 ".rpm" = true) ∧
        ∀ k, Foreign L k → fsLookup (linkSources env L sourcePaths newRpms w).2.fs k = fsLookup w.fs k
  | [], newRpms, w => ⟨[], [], by simp [linkSources], by simp [linkSources], rfl, rfl, by simp,
      fun _ _ => rfl⟩
  | sp :: rest, newRpms, w => by
    have hlist := listDirContents_rpm_names w sp
    obtain ⟨names, new1, a1, a2, a3, a4, a5, a6⟩ := linkRpms_spec env L sp hL
      (listDirContents w sp isRpmEntry).1 newRpms w (fun n hn => (hlist n hn).1)
    obtain ⟨pkgs, new2, b1, b2, b3, b4, b5, b6⟩ := linkSources_spec env L hL rest
      (linkRpms env L sp (listDirContents w sp isRpmEntry).1 newRpms w).1
      (linkRpms env L sp (listDirContents w sp isRpmEntry).1 newRpms w).2
    rw [linkSources]
    refine ⟨names.map (fun n => (sp, n)) ++ pkgs, new1 ++ new2, ?_, ?_, ?_, ?_, ?_, fun k hk => ?_⟩
    · rw [b1, a1]; simp [List.map_map, Function.comp]
    · rw [b2, a2]; simp
    · rw [linksMade_append, a3, b3]; simp [List.map_map, Function.comp]
    · rw [writtenCount_append, a4, b4]
    · intro pr hpr
      rcases List.mem_append.mp hpr with h | h
      · obtain ⟨n, hn, rfl⟩ := List.mem_map.mp h
        exact ⟨List.mem_cons_self _ _, hlist n (a5 n hn)⟩
      · obtain ⟨c1, c2⟩ := b5 pr h
        exact ⟨List.mem_cons_of_mem _ c1, c2⟩
    · rw [b6 k hk, a6 k hk]

/-! ## The backup name next to the live directory -/

/-- A path that continues the live directory's name with an underscore is foreign to it. -/
theorem foreign_of_underscore (L k : String) (rest : List Char)
    (h : k.data = L.data ++ '_' :: rest) : Foreign L k := by
  refine ⟨by rw [h]; simp, ?_⟩
  unfold isUnder
  rw [h, Bool.eq_false_iff]
  intro hp
  rw [List.isPrefixOf_iff_prefix, List.prefix_append_right_inj] at hp
  obtain ⟨t, ht⟩ := hp
  simp at ht

theorem simpleName_underscore (tag : String) (rest : List Char) (ht : SimpleName tag)
    (hr : '/' ∉ rest) : SimpleName ⟨tag.data ++ '_' :: rest⟩ := by
  have hmem : '_' ∈ tag.data ++ '_' :: rest := by simp
  refine ⟨by simp, ?_, ?_, ?_⟩
  · intro m
    rcases List.mem_append.mp m with m | m
    · exact ht.2.1 m
    · rcases List.mem_cons.mp m with m | m
      · exact absurd m (by decide)
      · exact hr m
  · intro e
    rw [show (⟨tag.data ++ '_' :: rest⟩ : String).data = tag.data ++ '_' :: rest from rfl] at e
    rw [e] at hmem
    exact absurd hmem (by decide)
  · intro e
    rw [show (⟨tag.data ++ '_' :: rest⟩ : String).data = tag.data ++ '_' :: rest from rfl] at e
    rw [e] at hmem
    exact absurd hmem (by decide)

/-- The live directory and every backup name the probe forms are cleaned paths with a last
element, and the backup name continues the live directory's name with an underscore. -/
theorem backup_paths (T tag today : String) (k : Nat) (ht : SimpleName tag)
    (hd : '/' ∉ today.data) :
    CleanNamed (filepathJoin T tag) ∧
    CleanNamed (backupCandidate (filepathJoin T (tag ++ "_" ++ today)) k) ∧
    ∃ rest : List Char, (backupCandidate (filepathJoin T (tag ++ "_" ++ today)) k).data =
      (filepathJoin T tag).data ++ '_' :: rest := by
  obtain ⟨l1, l2⟩ := filepathJoin_name T tag ht
  have hb : ∃ suffix : List Char, '/' ∉ suffix ∧
      (backupCandidate (filepathJoin T (tag ++ "_" ++ today)) k).data =
        (filepathJoin T (tag ++ "_" ++ today)).data ++ suffix := by
    unfold backupCandidate
    split_ifs
    · exact ⟨[], by simp, by simp⟩
    · obtain ⟨s, h1, h2⟩ := sprintfBackup_data (filepathJoin T (tag ++ "_" ++ today)) k
      exact ⟨s, h2, h1⟩
  obtain ⟨suffix, hs1, hs2⟩ := hb
  have htt : tag ++ "_" ++ today = ⟨tag.data ++ '_' :: today.data⟩ := by
    apply String.ext; simp [String.data_append]
  have hbase := (filepathJoin_name T _ (simpleName_underscore tag today.data ht hd)).1
  rw [← htt] at hbase
  have hsimple : SimpleName ⟨tag.data ++ '_' :: (today.data ++ suffix)⟩ :=
    simpleName_underscore tag (today.data ++ suffix) ht (by
      intro m
      rcases List.mem_append.mp m with m | m
      · exact hd m
      · exact hs1 m)
  obtain ⟨j1, j2⟩ := filepathJoin_name T _ hsimple
  have hB : backupCandidate (filepathJoin T (tag ++ "_" ++ today)) k =
      filepathJoin T ⟨tag.data ++ '_' :: (today.data ++ suffix)⟩ := by
    apply String.ext
    rw [hs2, hbase, j1]
    simp
  refine ⟨l2, hB ▸ j2, today.data ++ suffix, ?_⟩
  rw [hs2, hbase, l1]
  simp

theorem simpleName_diff_json : SimpleName "diff.json" := by
  unfold SimpleName
  decide

/-- The record path in a backup directory: the directory, a separator, `diff.json`. -/
theorem diff_json_path (L B : String) (hB : CleanNamed B) (rest : List Char)
    (hrest : B.data = L.data ++ '_' :: rest) :
    dirOf (filepathJoin B "diff.json") = B ∧ Foreign L (filepathJoin B "diff.json") := by
  have hj := (filepathJoin_clean_name B "diff.json" hB simpleName_diff_json).1
  constructor
  · have : filepathJoin B "diff.json" = ⟨B.data ++ '/' :: "diff.json".data⟩ := String.ext hj
    rw [this, dirOf_append_name B.data "diff.json".data (by decide)]
  · apply foreign_of_underscore L _ (rest ++ '/' :: "diff.json".data)
    rw [hj, hrest]
    simp

/-! ## createTagHandler: the first tag of a kind -/

theorem createDiff_unwritable (env : Env) (newRpms : List String) (B tag : String) (w : World)
    (hB : B ≠ "") (hdir : dirOf (filepathJoin B "diff.json") = B) (hno : fsLookup w.fs B = none) :
    (createDiff env [] newRpms B tag w).1 = none ∧
    (createDiff env [] newRpms B tag w).2.fs = w.fs ∧
    ∃ new, (createDiff env [] newRpms B tag w).2.calls = w.calls ++ new ∧
      linksMade new = [] ∧ writtenCount new = 0 := by
  have hw : ∀ data, osWriteFile w (filepathJoin B "diff.json") data =
      (false, { fs := w.fs,
                calls := w.calls ++ [SysCall.writeFile (filepathJoin B "diff.json") data false] }) := by
    intro data
    unfold osWriteFile parentIsDir
    rw [hdir, hno]
    simp [hB]
  unfold createDiff
  simp only
  split_ifs
  · exact ⟨rfl, rfl, [], by simp, rfl, rfl⟩
  · split
    · exact ⟨rfl, rfl, [], by simp, rfl, rfl⟩
    · rename_i data _
      rw [hw data]
      exact ⟨rfl, rfl, _, rfl, rfl, rfl⟩

/-- The second half of the handler when nothing was backed up and nothing is at the backup
path: a completed run reports no backup and no diff, counts the links it made, each of them
a package of a source directory, writes no file, and leaves every path foreign to the live
directory as it was. -/
theorem createTagFinish_fresh (env : Env) (folder tag today L B : String)
    (sourcePaths : List String) (w : World) (htool : CreaterepoLocal env)
    (hL : CleanNamed L) (hB : B ≠ "") (hfor : Foreign L B)
    (hdir : dirOf (filepathJoin B "diff.json") = B) (hno : fsLookup w.fs B = none)
    (hok : (createTagFinish env folder tag today L B sourcePaths [] false w).1.status = 200) :
    ∃ (pkgs : List (String × String)) (new : List SysCall),
      (createTagFinish env folder tag today L B sourcePaths [] false w).1.body =
        .summary folder tag today pkgs.length 0 false ∧
      (∀ pr ∈ pkgs, pr.1 ∈ sourcePaths ∧ SimpleName pr.2 ∧ stringsHasSuffix pr.2 ".rpm" = true) ∧
      (createTagFinish env folder tag today L B sourcePaths [] false w).2.calls = w.calls ++ new ∧
      linksMade new = pkgs.map (linkCall env L) ∧
      writtenCount new = 0 ∧
      ∀ k, Foreign L k →
        fsLookup (createTagFinish env folder tag today L B sourcePaths [] false w).2.fs k =
          fsLookup w.fs k := by
  obtain ⟨m1, m2⟩ := osMkdirAll_step w L
  unfold createTagFinish at hok ⊢
  rcases hm : osMkdirAll w L with ⟨ok1, w1⟩
  rw [hm] at m1 m2 hok
  simp only at m1 m2
  cases ok1
  · simp [jsonResponse] at hok
  · simp only at hok ⊢
    obtain ⟨pkgs, new2, l1, l2, l3, l4, l5, l6⟩ := linkSources_spec env L hL sourcePaths [] w1
    have hcr : ∀ w0 : World, (runCreaterepo env w0 L).2.calls =
        w0.calls ++ [SysCall.exec "createrepo_c" L (runCreaterepo env w0 L).1] := fun _ => rfl
    have hcf : ∀ (w0 : World) (k : String), Foreign L k →
        fsLookup (runCreaterepo env w0 L).2.fs k = fsLookup w0.fs k :=
      fun w0 k hk => htool L w0.fs k hk.2
    rcases hc : runCreaterepo env (linkSources env L sourcePaths [] w1).2 L with ⟨ok2, w2⟩
    have hcr' := hcr (linkSources env L sourcePaths [] w1).2
    have hcf' := hcf (linkSources env L sourcePaths [] w1).2
    rw [hc] at hcr' hcf' hok
    simp only at hcr' hcf'
    cases ok2
    · simp [jsonResponse] at hok
    · simp only
      have hnoB : fsLookup w2.fs B = none := by
        rw [hcf' B hfor, l6 B hfor, m2 B hfor, hno]
      obtain ⟨d1, d2, new4, d3, d4, d5⟩ := createDiff_unwritable env
        (linkSources env L sourcePaths [] w1).1 B tag w2 hB hdir hnoB
      refine ⟨pkgs, [SysCall.mkdirAll L true] ++ new2 ++ [SysCall.exec "createrepo_c" L true]
        ++ new4, ?_, l5, ?_, ?_, ?_, ?_⟩
      · rw [d1, l1]
        simp [jsonResponse]
      · rw [d3, hcr', l2, m1]
        simp
      · rw [linksMade_append, linksMade_append, linksMade_append, l3, d4]
        simp [linksMade, isLinkMade]
      · rw [writtenCount_append, writtenCount_append, writtenCount_append, l4, d5]
        simp [writtenCount]
      · intro k hk
        rw [d2, hcf' k hk, l6 k hk, m2 k hk]

theorem simpleName_tagType (t : String) (h : t = "monthly" ∨ t = "half-monthly") :
    SimpleName t := by
  rcases h with h | h <;> (subst h; unfold SimpleName; decide)

/-- C7 (amended). When `os.Stat` of the live path fails before the call (nothing is there) and
the workflow completes with status 200, the response reports `backup_created = false` and
`diff_count = 0`, its `file_count` is the number of links the call made, each of them the
link of a package file of one of the repository's source directories, the call wrote no
file, and neither the backup directory it had picked nor a `diff.json` in it exists
afterwards.  Assumed of the surroundings: the date has no separator, every entry of the
path table sits in a directory and is found by `os.Stat`, and `createrepo_c` works inside
the live directory only. -/
theorem createTagHandler_first_tag (env : Env) (config : AppConfig) (r : Request)
    (w w' : World) (resp : Response)
    (htool : CreaterepoLocal env) (hdate : '/' ∉ env.today.data)
    (hwf : FSWellFormed w.fs) (hreach : Reachable w)
    (hlive : ∃ e, osStat w (filepathJoin
      (config.GetTagsPathForRepo (valuesGet r.query "folder")) (valuesGet r.query "type")) =
        .error e)
    (hrun : createTagHandler env config r w = some (resp, w'))
    (hok : resp.status = 200) :
    ∃ (sourcePaths : List String) (pkgs : List (String × String)) (new : List SysCall)
      (backupDir : String),
      (config.GetRepoPaths (valuesGet r.query "folder") w).1 = .ok sourcePaths ∧
      resp.body = .summary (valuesGet r.query "folder") (valuesGet r.query "type")
        env.today pkgs.length 0 false ∧
      (∀ pr ∈ pkgs, pr.1 ∈ sourcePaths ∧ SimpleName pr.2 ∧ stringsHasSuffix pr.2 ".rpm" = true) ∧
      w'.calls = w.calls ++ new ∧
      linksMade new = pkgs.map (linkCall env (filepathJoin
        (config.GetTagsPathForRepo (valuesGet r.query "folder")) (valuesGet r.query "type"))) ∧
      writtenCount new = 0 ∧
      nextAvailableBackup w (filepathJoin (config.GetTagsPathForRepo (valuesGet r.query "folder"))
        (valuesGet r.query "type" ++ "_" ++ env.today)) env.fuel = some backupDir ∧
      fsLookup w'.fs backupDir = none ∧
      fsLookup w'.fs (filepathJoin backupDir "diff.json") = none := by
  unfold createTagHandler at hrun
  simp only at hrun
  split_ifs at hrun with h1
  · simp only [Option.some.injEq, Prod.mk.injEq] at hrun
    rw [← hrun.1] at hok
    simp [jsonResponse] at hok
  · have htype : SimpleName (valuesGet r.query "type") := by
      apply simpleName_tagType
      by_contra hc
      apply h1
      right
      exact ⟨fun e => hc (Or.inl e), fun e => hc (Or.inr e)⟩
    simp only [AppConfig.GetRepoPaths] at hrun ⊢
    cases hg : getRepoPathsLoop config.BasePath (valuesGet r.query "folder") config.Repos with
    | error msg =>
      rw [hg] at hrun
      simp only [Option.some.injEq, Prod.mk.injEq] at hrun
      rw [← hrun.1] at hok
      simp [jsonResponse] at hok
    | ok sourcePaths =>
      rw [hg] at hrun
      simp only at hrun
      cases hb : nextAvailableBackup w (filepathJoin
          (config.GetTagsPathForRepo (valuesGet r.query "folder"))
          (valuesGet r.query "type" ++ "_" ++ env.today)) env.fuel with
      | none => rw [hb] at hrun; cases hrun
      | some B =>
        rw [hb] at hrun
        simp only at hrun
        obtain ⟨e, hst⟩ := hlive
        rw [hst] at hrun
        simp only [Option.some.injEq] at hrun
        have hb' : nextAvailableBackupLoop w (filepathJoin
            (config.GetTagsPathForRepo (valuesGet r.query "folder"))
            (valuesGet r.query "type" ++ "_" ++ env.today)) env.fuel 0
            (backupCandidate (filepathJoin
              (config.GetTagsPathForRepo (valuesGet r.query "folder"))
              (valuesGet r.query "type" ++ "_" ++ env.today)) 0) = some B := by
          simpa [nextAvailableBackup, backupCandidate] using hb
        obtain ⟨hfree, k, _, hBk, _⟩ := nextAvailableBackupLoop_sound w _ env.fuel 0 B hb'
        obtain ⟨hL, hBc, rest, hrest⟩ := backup_paths
          (config.GetTagsPathForRepo (valuesGet r.query "folder"))
          (valuesGet r.query "type") env.today k htype hdate
        rw [← hBk] at hBc hrest
        have hfor : Foreign _ B := foreign_of_underscore _ B rest hrest
        have hBne : B ≠ "" := cleanNamed_ne hBc
        obtain ⟨hdir, hforD⟩ := diff_json_path _ B hBc rest hrest
        have hnoB : fsLookup w.fs B = none := by
          cases hl : fsLookup w.fs B with
          | none => rfl
          | some n =>
            obtain ⟨x, hx, hxp⟩ := fsLookup_some_mem hl
            have := hreach x hx
            rw [hxp, hfree] at this
            cases this
        have hnoD : fsLookup w.fs (filepathJoin B "diff.json") = none := by
          cases hl : fsLookup w.fs (filepathJoin B "diff.json") with
          | none => rfl
          | some n =>
            obtain ⟨x, hx, hxp⟩ := fsLookup_some_mem hl
            have := hwf x hx
            rw [hxp] at this
            unfold parentIsDir at this
            rw [hdir, hnoB] at this
            simp [hBne] at this
        have hfin := createTagFinish_fresh env (valuesGet r.query "folder")
          (valuesGet r.query "type") env.today _ B sourcePaths w htool hL hBne hfor hdir hnoB
          (by rw [hrun]; exact hok)
        rw [hrun] at hfin
        obtain ⟨pkgs, new, f1, f2, f3, f4, f5, f6⟩ := hfin
        exact ⟨sourcePaths, pkgs, new, B, rfl, f1, f2, f3, f4, f5, rfl,
          by rw [f6 B hfor, hnoB], by rw [f6 _ hforD, hnoD]⟩

/-- C7 (counterexample). A regular file named `monthly` in the tags directory: no live
directory exists, yet `os.Stat` succeeds on the live path, the file is renamed to the
backup name, and the completed response reports `backup_created = true`. -/
theorem createTagHandler_file_at_live_path :
    osStat fileAtLiveWorld "/tags/monthly" = .ok (Node.file "x") ∧
    (createTagHandler demoEnv demoConfig demoRequest fileAtLiveWorld).map (fun x => x.1) =
      some (jsonResponse 200 (.summary "alpha" "monthly" "2024-01-02" 1 0 true)) := by
  decide
/-! ## Concrete runs -/

theorem demoEnv_local : CreaterepoLocal demoEnv := by
  intro d fs k hk
  show fsLookup (fsSet fs (d ++ "/repodata") Node.dir) k = fsLookup fs k
  apply fsLookup_fsSet_ne
  intro e
  have : isUnder d (d ++ "/repodata") = true := by
    unfold isUnder
    rw [List.isPrefixOf_iff_prefix]
    exact ⟨"repodata".data, by simp [String.data_append]⟩
  rw [← e, hk] at this
  cases this

theorem asciiLower_misses (c : Char) (h : 128 ≤ c.toNat) : c.toLower ∉ ['b', 'e', 'a', 'r'] := by
  rw [toLower_of_ge c h]
  intro hx
  simp only [List.mem_cons, List.mem_singleton, List.not_mem_nil, or_false] at hx
  rcases hx with hx | hx | hx | hx <;> (rw [hx] at h; revert h; decide)

/-- C1 at a concrete input: old `b, a, a` against new `c, a, d, c`. -/
theorem createDiff_record_spec_witness :
    (createDiff demoEnv ["b.rpm", "a.rpm", "a.rpm"] ["c.rpm", "a.rpm", "d.rpm", "c.rpm"]
        "/tags/monthly_2024-01-02" "monthly" backupWorld).1 = some demoDiff ∧
    ((∀ x, x ∈ demoDiff.added ↔
        x ∈ ["c.rpm", "a.rpm", "d.rpm", "c.rpm"] ∧ x ∉ ["b.rpm", "a.rpm", "a.rpm"]) ∧
      (∀ x, x ∈ demoDiff.removed ↔
        x ∈ ["b.rpm", "a.rpm", "a.rpm"] ∧ x ∉ ["c.rpm", "a.rpm", "d.rpm", "c.rpm"]) ∧
      demoDiff.added.Pairwise (fun a b => strLess a b = true) ∧
      demoDiff.removed.Pairwise (fun a b => strLess a b = true) ∧
      (∀ x, x ∈ demoDiff.added → x ∉ demoDiff.removed)) :=
  ⟨by decide,
   createDiff_record_spec demoEnv ["b.rpm", "a.rpm", "a.rpm"] ["c.rpm", "a.rpm", "d.rpm", "c.rpm"]
     "/tags/monthly_2024-01-02" "monthly" backupWorld demoDiff (by decide)⟩

/-- C2 at concrete inputs: equal name sets give no record and an untouched world; different
name sets with a writable backup directory give a record. -/
theorem createDiff_nil_spec_witness :
    createDiff demoEnv ["b.rpm", "a.rpm"] ["a.rpm", "b.rpm", "a.rpm"]
      "/tags/monthly_2024-01-02" "monthly" backupWorld = (none, backupWorld) ∧
    (createDiff demoEnv ["a.rpm"] ["b.rpm"] "/tags/monthly_2024-01-02" "monthly" backupWorld).1 ≠
      none :=
  ⟨(createDiff_nil_spec demoEnv ["b.rpm", "a.rpm"] ["a.rpm", "b.rpm", "a.rpm"]
      "/tags/monthly_2024-01-02" "monthly" backupWorld).1
      (by intro x; simp only [List.mem_cons, List.mem_singleton, List.not_mem_nil, or_false]; tauto),
   fun hnil => absurd
     (((createDiff_nil_spec demoEnv ["a.rpm"] ["b.rpm"] "/tags/monthly_2024-01-02" "monthly"
        backupWorld).2 "monthly_2024-01-02 -> monthly + b.rpm - a.rpm" (by decide) (by decide) hnil) "a.rpm")
     (by decide)⟩

/-- C3 at a concrete input: today's backup name and its `_1` variant are taken. -/
theorem nextAvailableBackup_spec_witness :
    nextAvailableBackup backupWorld "/tags/monthly_2024-01-02" 8 =
      some "/tags/monthly_2024-01-02_2" :=
  (nextAvailableBackup_spec backupWorld "/tags/monthly_2024-01-02").1 2 (by decide)
    (by decide) (by decide) 8 (by decide)

/-- C5 at a concrete input: ASCII lowering, no token in the environment, and the header
`Bearer changeme`. -/
theorem AuthMiddleware_spec_witness :
    (∀ c : Char, c.toNat < 128 → c.toLower = c.toLower) ∧
    (∀ c : Char, 128 ≤ c.toNat → c.toLower ∉ ['b', 'e', 'a', 'r']) ∧
    AuthMiddleware (fun _ => "") Char.toLower demoRequest = .serveNext :=
  ⟨fun _ _ => rfl, asciiLower_misses,
   ((AuthMiddleware_spec (fun _ => "") Char.toLower (fun _ _ => rfl) asciiLower_misses
      demoRequest).1).mpr ⟨"Bearer", "changeme", by decide, by unfold equalIgnoreCase; decide, by decide⟩⟩

/-- C6 at a concrete input: a request without the folder parameter. -/
theorem createTagHandler_bad_request_witness :
    valuesGet badRequest.query "folder" = "" ∧
    ∃ msg, createTagHandler demoEnv demoConfig badRequest demoWorld =
      some (jsonResponse 400 (.error msg), demoWorld) :=
  ⟨by decide, createTagHandler_bad_request demoEnv demoConfig badRequest demoWorld
    (Or.inl (by decide))⟩

/-- C7 (amended) at a concrete input: repository `alpha` with the one source package
`pkg-1.0.rpm` and no tag yet. -/
theorem createTagHandler_first_tag_witness :
    (CreaterepoLocal demoEnv ∧ '/' ∉ demoEnv.today.data ∧ FSWellFormed demoWorld.fs ∧
      Reachable demoWorld ∧
      osStat demoWorld "/tags/monthly" = .error .notExist ∧
      createTagHandler demoEnv demoConfig demoRequest demoWorld = some demoResult ∧
      demoResult.1.status = 200) ∧
    ∃ (sourcePaths : List String) (pkgs : List (String × String)) (new : List SysCall)
      (backupDir : String),
      (demoConfig.GetRepoPaths "alpha" demoWorld).1 = .ok sourcePaths ∧
      demoResult.1.body = .summary "alpha" "monthly" "2024-01-02" pkgs.length 0 false ∧
      (∀ pr ∈ pkgs, pr.1 ∈ sourcePaths ∧ SimpleName pr.2 ∧ stringsHasSuffix pr.2 ".rpm" = true) ∧
      demoResult.2.calls = demoWorld.calls ++ new ∧
      linksMade new = pkgs.map (linkCall demoEnv "/tags/monthly") ∧
      writtenCount new = 0 ∧
      nextAvailableBackup demoWorld "/tags/monthly_2024-01-02" 8 = some backupDir ∧
      fsLookup demoResult.2.fs backupDir = none ∧
      fsLookup demoResult.2.fs (filepathJoin backupDir "diff.json") = none :=
  ⟨⟨demoEnv_local, by decide, by unfold FSWellFormed; decide, by unfold Reachable; decide,
      by decide, by decide, by decide⟩,
   createTagHandler_first_tag demoEnv demoConfig demoRequest demoWorld demoResult.2 demoResult.1
     demoEnv_local (by decide) (by unfold FSWellFormed; decide) (by unfold Reachable; decide)
     ⟨OSError.notExist, by decide⟩ (by decide) (by decide)⟩

/-- C9 (amended) at a concrete input: the configuration with the single repository `alpha`. -/
theorem tagsPath_consistent_witness :
    (demoConfig.Repos.filter (fun r => decide (r.ID = "alpha"))).length = 1 ∧
    ∃ repo, demoConfig.Repos.find? (fun r => decide (r.ID = "alpha")) = some repo ∧
      (demoConfig.GetRepoPaths "alpha" demoWorld).1 =
        .ok (repo.Paths.map (fun p => filepathJoin demoConfig.BasePath p)) ∧
      mapGet (repoPathMap demoConfig) "alpha" = some (demoConfig.GetTagsPathForRepo "alpha") ∧
      demoConfig.GetTagsPathForRepo "alpha" = tagDirOf demoConfig repo :=
  ⟨by decide, tagsPath_consistent demoConfig "alpha" demoWorld (by decide)⟩

/-- C10. With the same file name in two source directories both links are made, the second
replacing the first: `file_count` is 2 while the live directory holds one package link. -/
theorem createTagHandler_file_count_overcounts :
    (createTagHandler demoEnv twoSourceConfig demoRequest twoSourceWorld).map
        (fun x => (x.1, (listDirContents x.2 "/tags/monthly" isRpmEntry).1, linkedCount x.2.calls,
          failedLinkCount x.2.calls)) =
      some (jsonResponse 200 (.summary "alpha" "monthly" "2024-01-02" 2 0 false),
        ["pkg-1.0.rpm"], 2, 0) := by
  decide

/-! ## Further properties -/

/-- Listing a directory that does not exist gives the empty list and no error, whatever the
filter. -/
theorem listDirContents_missing (w : World) (path : String) (filter : OsDirEntry → Bool)
    (h : statIsNotExist w path = true) : listDirContents w path filter = ([], none) := by
  have h' : resolvePath w.fs statFuel maxSymlinks path = .error .notExist := by
    unfold statIsNotExist osStat at h
    cases hr : resolvePath w.fs statFuel maxSymlinks path with
    | ok r => rw [hr] at h; cases h
    | error e =>
      rw [hr] at h
      cases e
      · rfl
      · cases h
  unfold listDirContents osReadDir
  rw [h']

/-- Listing the missing live directory of `alpha` in the initial state. -/
theorem listDirContents_missing_witness :
    statIsNotExist demoWorld "/tags/monthly" = true ∧
    listDirContents demoWorld "/tags/monthly" isRpmEntry = ([], none) :=
  ⟨by decide, listDirContents_missing demoWorld "/tags/monthly" isRpmEntry (by decide)⟩

/-- The second tag of `alpha`, after `pkg-1.0.rpm` was replaced by `pkg-2.0.rpm` in the source:
the old live directory becomes the backup, the response reports one linked file, two
changed packages and a backup, and the record written into the backup lists
`pkg-2.0.rpm` as added and `pkg-1.0.rpm` as removed. -/
theorem createTagHandler_second_tag :
    (createTagHandler demoEnv demoConfig demoRequest secondWorld).map
        (fun x => (x.1, fsLookup x.2.fs "/tags/monthly_2024-01-02/diff.json",
          fsLookup x.2.fs "/tags/monthly_2024-01-02/pkg-1.0.rpm",
          (listDirContents x.2 "/tags/monthly" isRpmEntry).1)) =
      some (jsonResponse 200 (.summary "alpha" "monthly" "2024-01-02" 1 2 true),
        some (Node.file "monthly_2024-01-02 -> monthly + pkg-2.0.rpm - pkg-1.0.rpm"),
        some (Node.symlink "/srv/el8/pkg-1.0.rpm"),
        ["pkg-2.0.rpm"]) := by
  decide

end RpmServer
